import Mathlib

/-!
# cache-me-ousside: pattern hydration, bust-flag parsing, configuration and routing

A shallow embedding of `cache/utils.go` (the `Set` type and `hydrateParams`), of
`internal/cli/cli.go` (`parseAndSetBustArgs`, `addToConfig`) and of
`internal/router/router.go` (`Start`, `setBustingEndpoints`, `setCachingEndpoints`),
with the properties the specification states about them. The package
`internal/config` is not among the sources: the type `Config` and the three methods
`addToConfig` calls on it are modelled from the specification, and the result of
`config.New()` is a parameter. The LRU store of package `cache` is not among the
sources either; it is modelled from the specification.

Conventions of the embedding.

* A Go `string` is a sequence of bytes; it is modelled by `Str = List Char`, one
  element per byte. Every string function used by the program only compares
  elements for equality.
* A Go slice of strings is a reference to a backing array. The arrays live in a
  `Heap`; a `Slice` is the address of its backing array (the slice spans the whole
  array). `make`, `copy`, indexing and indexed assignment act on the heap.
* A Go map is modelled by the list of its entries, one entry per key. The order
  in which `range` visits the entries is not specified by the language: a visiting
  order is any permutation of the entries (`RangeOrder`). Functions that iterate
  over a map take the visiting order as their argument.
* A function that works on a `*config.Config` returns an `Outcome`: the
  configuration it leaves behind the pointer together with the `error` it
  returns, or a panic.
* The `*fiber.App` of the router is the table of the registrations made on it, in
  the order in which they were made; the handlers of the package that are not
  among the sources are constructors that keep their arguments.
-/

namespace CacheMeOusside

/-! ## Definitions -/

/-- A Go string, as the sequence of its bytes. -/
abbrev Str := List Char

/-! ### The `strings` package -/

/-- Scanner behind `strings.ReplaceAll` for a non-empty `old`: the first argument
counts the bytes of a matched occurrence of `old` that are still to be skipped.
At a position where `old` starts, `new` is emitted and the occurrence is skipped;
elsewhere the byte is copied. -/
def replaceFrom (old new : Str) : Nat → Str → Str
  | _, [] => []
  | k + 1, _ :: cs => replaceFrom old new k cs
  | 0, c :: cs =>
    if old.isPrefixOf (c :: cs) then new ++ replaceFrom old new (old.length - 1) cs
    else c :: replaceFrom old new 0 cs

/-- Go `strings.ReplaceAll(s, old, new)`: all non-overlapping instances of `old`
replaced by `new`, scanning from the left. For an empty `old` the replacement is
inserted at the beginning of the string and after each element. -/
def ReplaceAll (s old new : Str) : Str :=
  if old = [] then new ++ s.flatMap (fun c => c :: new) else replaceFrom old new 0 s

/-- Go `strings.Contains(s, substr)`: `substr` occurs somewhere in `s`. -/
def Contains : Str → Str → Bool
  | [], substr => substr.isEmpty
  | c :: cs, substr => substr.isPrefixOf (c :: cs) || Contains cs substr

/-- Scanner behind `strings.Split` for a non-empty separator: the first argument
counts the bytes of a matched separator that are still to be skipped. At a
position where the separator starts the current piece ends; elsewhere the byte
joins the current piece. -/
def splitFrom (sep : Str) : Nat → Str → List Str
  | _, [] => [[]]
  | k + 1, _ :: cs => splitFrom sep k cs
  | 0, c :: cs =>
    if sep.isPrefixOf (c :: cs) then [] :: splitFrom sep (sep.length - 1) cs
    else
      match splitFrom sep 0 cs with
      | [] => [[c]]
      | p :: ps => (c :: p) :: ps

/-- Go `strings.Split(s, sep)`: the pieces of `s` between the non-overlapping
instances of `sep`, found from the left. For an empty `sep` the string is split
after each element. -/
def Split (s sep : Str) : List Str :=
  if sep = [] then s.map (fun c => [c]) else splitFrom sep 0 s

/-- Go `strings.Join(elems, sep)`. -/
def Join : List Str → Str → Str
  | [], _ => []
  | [a], _ => a
  | a :: b :: rest, sep => a ++ sep ++ Join (b :: rest) sep

/-! ### Slices of strings in a heap -/

/-- The backing arrays of the program's string slices, addressed by position. -/
abbrev Heap := List (List Str)

/-- A slice value: the address of its backing array. -/
abbrev Slice := Nat

/-- The elements of slice `s`; an address outside the heap is the nil slice. -/
def Heap.read (h : Heap) (s : Slice) : List Str := h.getD s []

/-- Go `len(s)`. -/
def Heap.len (h : Heap) (s : Slice) : Nat := (h.read s).length

/-- Go `s[i]` as an expression, for an index within the slice. -/
def Heap.index (h : Heap) (s : Slice) (i : Nat) : Str := (h.read s).getD i []

/-- Go `s[i] = v`, for an index within the slice. -/
def Heap.store (h : Heap) (s : Slice) (i : Nat) (v : Str) : Heap :=
  h.set s ((h.read s).set i v)

/-- Go `make([]string, n)`: a new backing array of `n` empty strings, at an address
not used before. -/
def make (h : Heap) (n : Nat) : Heap × Slice :=
  (h ++ [List.replicate n []], h.length)

/-- Go `copy(dst, src)`: the first `min(len(dst), len(src))` elements of `src`
overwrite those of `dst`. -/
def copy (h : Heap) (dst src : Slice) : Heap :=
  let n := min (h.len dst) (h.len src)
  h.set dst ((h.read src).take n ++ (h.read dst).drop n)

/-! ### Go maps -/

/-- A Go map, as the list of its entries (one per key). -/
abbrev GoMap (K V : Type) := List (K × V)

/-- The sequences in which `for k, v := range m` may visit the entries of `m`:
every entry exactly once, in an unspecified order. -/
def RangeOrder {K V : Type} (m : GoMap K V) (visit : List (K × V)) : Prop :=
  visit.Perm m

/-- Go `v, ok := m[k]`. -/
def GoMap.get? {K V : Type} [DecidableEq K] : GoMap K V → K → Option V
  | [], _ => none
  | (k', v) :: rest, k => if k' = k then some v else GoMap.get? rest k

/-- Go `m[k] = v`. -/
def GoMap.put {K V : Type} [DecidableEq K] : GoMap K V → K → V → GoMap K V
  | [], k, v => [(k, v)]
  | (k', v') :: rest, k, v =>
    if k' = k then (k, v) :: rest else (k', v') :: GoMap.put rest k v

/-- Go `delete(m, k)`. -/
def GoMap.delete {K V : Type} [DecidableEq K] : GoMap K V → K → GoMap K V
  | [], _ => []
  | (k', v') :: rest, k => if k' = k then rest else (k', v') :: GoMap.delete rest k

/-! ### `cache/utils.go` -/

/-- Go `type Set[T comparable] map[T]void`. -/
abbrev Set (T : Type) := GoMap T Unit

/-- Go `var nothing void`. -/
def nothing : Unit := ()

/-- Go `func (set Set[T]) Add(elem T)`: `set[elem] = nothing`. -/
def Set.Add {T : Type} [DecidableEq T] (set : Set T) (elem : T) : Set T :=
  GoMap.put set elem nothing

/-- Go `func (set Set[T]) Remove(elem T)`: `delete(set, elem)`. -/
def Set.Remove {T : Type} [DecidableEq T] (set : Set T) (elem : T) : Set T :=
  GoMap.delete set elem

/-- Go `func (set Set[T]) Has(elem T) bool`. -/
def Set.Has {T : Type} [DecidableEq T] (set : Set T) (elem : T) : Bool :=
  (GoMap.get? set elem).isSome

/-- Go `func (set Set[T]) Elements() []T`: the keys are appended to an empty slice
in the order `visit` in which `range set` yields them. -/
def Set.Elements {T : Type} (visit : List (T × Unit)) : List T :=
  visit.foldl (fun elements k => elements ++ [k.1]) []

/-- The inner loop of `hydrateParams`,
`for i, pattern := range newRoutePatterns { newRoutePatterns[i] = strings.ReplaceAll(pattern, ":"+param, value) }`. -/
def hydrateOne (h : Heap) (newRoutePatterns : Slice) (param value : Str) : Heap :=
  (List.range (h.len newRoutePatterns)).foldl
    (fun h i =>
      let pattern := h.index newRoutePatterns i
      h.store newRoutePatterns i (ReplaceAll pattern (':' :: param) value))
    h

/-- Go `hydrateParams(paramMap, routePatternTemplates)`. The argument `visit` is the
sequence in which `range paramMap` yields the bindings of the parameter map. The
result is the heap after the call and the returned slice. -/
def hydrateParams (h : Heap) (visit : List (Str × Str)) (routePatternTemplates : Slice) :
    Heap × Slice :=
  let (h1, newRoutePatterns) := make h (h.len routePatternTemplates)
  let h2 := copy h1 newRoutePatterns routePatternTemplates
  let h3 := visit.foldl (fun h pv => hydrateOne h newRoutePatterns pv.1 pv.2) h2
  (h3, newRoutePatterns)

/-- The patterns returned by a call of `hydrateParams`, read from the heap after
the call. -/
def hydrated (h : Heap) (visit : List (Str × Str)) (routePatternTemplates : Slice) :
    List Str :=
  (hydrateParams h visit routePatternTemplates).1.read
    (hydrateParams h visit routePatternTemplates).2

/-- The content of the slice returned by `hydrateParams`, as a function of the
content of its argument: the bindings are applied one after the other, in the
order visited, each to every pattern (`hydrated_eq` below). -/
def hydrateList (visit : List (Str × Str)) (patterns : List Str) : List Str :=
  visit.foldl (fun ps pv => ps.map (fun p => ReplaceAll p (':' :: pv.1) pv.2)) patterns

/-! ### `internal/cli/cli.go` -/

/-- Modelled from the spec: the type `config.Config` (package `internal/config`,
whose declaration is not among the sources). The fields are those the command
line code and its tests read and write; `Bust` is the specification's mapping
`method → {routeTemplate → [regexPattern]}` and `Cache` its mapping
`method → [routeTemplate]`. A method without an entry in `Bust` stands for a nil
inner map, and `Cache = none` for a nil map. -/
structure Config where
  Capacity : Nat
  CapacityUnit : Str
  Hostname : Str
  Port : Nat
  ApiUrl : Str
  LogFilePath : Str
  Cache : Option (GoMap Str (List Str))
  Bust : GoMap Str (GoMap Str (List Str))
  deriving DecidableEq

/-- Go `RouteSepChar = "=>"`. -/
def RouteSepChar : Str := ['=', '>']

/-- Go `PatternSepChar = "||"`. -/
def PatternSepChar : Str := ['|', '|']

/-- The values of Go type `error` the command line code returns: the error built by
`newParseBustArgError(method, args)`, whose message is determined by the method
and the argument, and the error of a rejected configuration. -/
inductive Error
  | parseBustArg (method args : Str)
  | invalidConfig (reason : Str)
  deriving DecidableEq

/-- Go `newParseBustArgError(method, args)`. -/
def newParseBustArgError (method args : Str) : Error :=
  Error.parseBustArg method args

/-- How a call that works on a `*config.Config` ends: it returns, leaving the
configuration `c` behind the pointer and giving back `err` (`none` for `nil`), or
it panics. -/
inductive Outcome
  | returned (c : Config) (err : Option Error)
  | panicked
  deriving DecidableEq

/-- Whether a call returned a non-nil error. -/
def Outcome.isError : Outcome → Bool
  | Outcome.returned _ (some _) => true
  | _ => false

/-- Go `parseAndSetBustArgs(c, method, args)`. The assignment
`c.Bust[method][route] = patterns` writes into the inner map of `method`; Go panics
on an assignment to an entry of a nil map. -/
def parseAndSetBustArgs (c : Config) (method args : Str) : Outcome :=
  if !Contains args RouteSepChar then
    Outcome.returned c (some (newParseBustArgError method args))
  else
    let routeAndPatterns := Split args RouteSepChar
    if routeAndPatterns.length ≠ 2 then
      Outcome.returned c (some (newParseBustArgError method args))
    else
      let route := routeAndPatterns.getD 0 []
      let patternsString := routeAndPatterns.getD 1 []
      if patternsString = [] then
        Outcome.returned c (some (newParseBustArgError method args))
      else
        let patterns := Split (routeAndPatterns.getD 1 []) PatternSepChar
        if route = [] ∨ patterns = [] ∨ patterns.length = 0 then
          Outcome.returned c (some (newParseBustArgError method args))
        else
          match GoMap.get? c.Bust method with
          | none => Outcome.panicked
          | some endpoints =>
            Outcome.returned
              { c with Bust := GoMap.put c.Bust method (GoMap.put endpoints route patterns) }
              none

/-- The nine HTTP methods for which the command line has a `--bust:METHOD` flag. -/
def bustMethods : List Str :=
  ["GET".toList, "HEAD".toList, "POST".toList, "PUT".toList, "DELETE".toList,
    "PATCH".toList, "TRACE".toList, "CONNECT".toList, "OPTIONS".toList]

/-- The patterns stored for `route` under `method`, Go `c.Bust[method][route]`. -/
def Config.bustPatterns (c : Config) (method route : Str) : Option (List Str) :=
  (GoMap.get? c.Bust method).bind (fun endpoints => GoMap.get? endpoints route)

/-- The configuration holds a map in `Bust` for each of the nine methods. -/
def Allocated (c : Config) : Prop :=
  ∀ m ∈ bustMethods, (GoMap.get? c.Bust m).isSome = true

/-- The route a bust flag value names: the part before `"=>"`. -/
def bustRoute (args : Str) : Str := (Split args RouteSepChar).getD 0 []

/-- The patterns a bust flag value lists: the part after `"=>"`, split at `"||"`. -/
def bustPatternsOf (args : Str) : List Str :=
  Split ((Split args RouteSepChar).getD 1 []) PatternSepChar

/-- Go `strings.ToLower`, on ASCII letters. -/
def ToLower (s : Str) : Str := s.map Char.toLower

/-- The two HTTP methods for which the command line has a `--cache:METHOD` flag. -/
def cacheMethods : List Str := ["GET".toList, "HEAD".toList]

/-- Modelled from the spec: `(*Config).TrimTrailingSlash` (package `internal/config`,
not among the sources). "`ApiUrl`: upstream base URL; trailing slash trimmed"; the
test of the method in `config_test.go` expects it "to remove trailing slashes from
the apiUrl". Every `'/'` at the end of `ApiUrl` is removed, so that the value left
has no trailing slash. -/
def Config.TrimTrailingSlash (c : Config) : Config :=
  { c with ApiUrl := c.ApiUrl.rdropWhile (fun b => b == '/') }

/-- Modelled from the spec: `(*Config).RemoveInvalidHTTPMethods` (package
`internal/config`, not among the sources). "Any method key not in the set {GET,
HEAD, POST, PUT, DELETE, PATCH, TRACE, CONNECT, OPTIONS} is dropped. Caching is
restricted to GET and HEAD; attempts to configure caching for other methods are
removed". -/
def Config.RemoveInvalidHTTPMethods (c : Config) : Config :=
  { c with
    Cache := c.Cache.map (fun cache => cache.filter (fun e => decide (e.1 ∈ cacheMethods)))
    Bust := c.Bust.filter (fun e => decide (e.1 ∈ bustMethods)) }

/-- Modelled from the spec: `(*Config).Validate` (package `internal/config`, not
among the sources). "ConfigurationRejected: capacity zero, unknown capacity unit,
missing `ApiUrl`, or no cacheable routes"; the capacity unit is "empty or one of
`b|kb|mb|gb|tb`, case-insensitive". The configuration is only inspected. -/
def Config.Validate (c : Config) : Option Error :=
  if c.Capacity = 0 then some (Error.invalidConfig "capacity".toList)
  else if ToLower c.CapacityUnit ∉
      ["".toList, "b".toList, "kb".toList, "mb".toList, "gb".toList, "tb".toList] then
    some (Error.invalidConfig "capacityUnit".toList)
  else if c.ApiUrl = [] then some (Error.invalidConfig "apiUrl".toList)
  else if (c.Cache.getD []).all (fun e => e.2.isEmpty) then
    some (Error.invalidConfig "cache".toList)
  else none

/-- Go `type cliArgs struct`; a `cli.StringSlice` is represented by its `Value()`. -/
structure cliArgs where
  configPath : Str
  capacity : Nat
  capacityUnit : Str
  hostname : Str
  port : Nat
  apiUrl : Str
  logFilePath : Str
  cacheGET : List Str
  cacheHEAD : List Str
  bustGET : List Str
  bustHEAD : List Str
  bustPOST : List Str
  bustPUT : List Str
  bustDELETE : List Str
  bustPATCH : List Str
  bustTRACE : List Str
  bustCONNECT : List Str
  bustOPTIONS : List Str
  deriving DecidableEq

/-- What the command line gives: for each single-valued flag of `CreateConfFromCli`
its value when the flag was given (as an argument or through one of the flag's
`EnvVars`), and for each repeatable flag the values given, one for each time the
flag occurs (none when the flag is absent). -/
structure Flags where
  config : Option Str
  capacity : Option Nat
  capacityUnit : Option Str
  hostname : Option Str
  port : Option Nat
  apiUrl : Option Str
  logfile : Option Str
  cacheGET : List Str
  cacheHEAD : List Str
  bustGET : List Str
  bustHEAD : List Str
  bustPOST : List Str
  bustPUT : List Str
  bustDELETE : List Str
  bustPATCH : List Str
  bustTRACE : List Str
  bustCONNECT : List Str
  bustOPTIONS : List Str

/-- The `Value()` of a `cli.StringSlice` after its flag was given the values `given`.
The flag parser (package `urfave/cli`, not among the sources) splits each value
at `","` and appends the pieces: `TestFlagParsing` gives `--cache:HEAD` the one value
`"/posts,/posts/:id"` and expects the two routes in `conf.Cache["HEAD"]`. -/
def stringSliceValue (given : List Str) : List Str :=
  given.flatMap (fun value => Split value [','])

/-- The `cliArgs` the flag parser leaves for `addToConfig`: `args := cliArgs{}` is
created with zero values and each flag that was given writes its value to its
`Destination` field. -/
def Flags.toArgs (f : Flags) : cliArgs :=
  { configPath := f.config.getD []
    capacity := f.capacity.getD 0
    capacityUnit := f.capacityUnit.getD []
    hostname := f.hostname.getD []
    port := f.port.getD 0
    apiUrl := f.apiUrl.getD []
    logFilePath := f.logfile.getD []
    cacheGET := stringSliceValue f.cacheGET
    cacheHEAD := stringSliceValue f.cacheHEAD
    bustGET := stringSliceValue f.bustGET
    bustHEAD := stringSliceValue f.bustHEAD
    bustPOST := stringSliceValue f.bustPOST
    bustPUT := stringSliceValue f.bustPUT
    bustDELETE := stringSliceValue f.bustDELETE
    bustPATCH := stringSliceValue f.bustPATCH
    bustTRACE := stringSliceValue f.bustTRACE
    bustCONNECT := stringSliceValue f.bustCONNECT
    bustOPTIONS := stringSliceValue f.bustOPTIONS }

/-- Sequencing of two steps on the configuration: the second runs when the first
returned `nil`; an error is returned at once (`if err != nil { return err }`), and a
panic propagates. -/
def Outcome.andThen (o : Outcome) (f : Config → Outcome) : Outcome :=
  match o with
  | Outcome.returned c none => f c
  | Outcome.returned c (some e) => Outcome.returned c (some e)
  | Outcome.panicked => Outcome.panicked

/-- The loop `for _, args := range values { err := parseAndSetBustArgs(c, method, args); if err != nil { return err } }`. -/
def bustLoop (method : Str) : List Str → Config → Outcome
  | [], c => Outcome.returned c none
  | args :: rest, c => (parseAndSetBustArgs c method args).andThen (bustLoop method rest)

/-- One of the nine blocks `if len(a.bustM.Value()) > 0 { for ... }` of `addToConfig`. -/
def bustStage (method : Str) (values : List Str) (c : Config) : Outcome :=
  if values.length > 0 then bustLoop method values c else Outcome.returned c none

/-- One of the two blocks `if len(a.cacheM.Value()) > 0 { c.Cache[M] = a.cacheM.Value() }`
of `addToConfig`; Go panics on an assignment to an entry of a nil map. -/
def cacheStage (method : Str) (values : List Str) (c : Config) : Outcome :=
  if values.length > 0 then
    match c.Cache with
    | none => Outcome.panicked
    | some cache => Outcome.returned { c with Cache := some (GoMap.put cache method values) } none
  else Outcome.returned c none

/-- Go `(a *cliArgs) addToConfig(c *config.Config) error`. The argument `new` is the
configuration `config.New()` returns (package `internal/config`, not among the
sources); `c = none` is the nil pointer. -/
def addToConfig (new : Config) (a : cliArgs) (c : Option Config) : Outcome :=
  let c := c.getD new
  let c := if a.capacity ≠ 0 then { c with Capacity := a.capacity } else c
  let c := if a.capacityUnit ≠ [] then { c with CapacityUnit := a.capacityUnit } else c
  let c := if a.hostname ≠ [] then { c with Hostname := a.hostname } else c
  let c := if a.port ≠ 0 then { c with Port := a.port } else c
  let c := if a.apiUrl ≠ [] then { c with ApiUrl := a.apiUrl } else c
  let c := if a.logFilePath ≠ [] then { c with LogFilePath := a.logFilePath } else c
  (((((((((((cacheStage "GET".toList a.cacheGET c).andThen
    (cacheStage "HEAD".toList a.cacheHEAD)).andThen
    (bustStage "GET".toList a.bustGET)).andThen
    (bustStage "HEAD".toList a.bustHEAD)).andThen
    (bustStage "POST".toList a.bustPOST)).andThen
    (bustStage "PUT".toList a.bustPUT)).andThen
    (bustStage "DELETE".toList a.bustDELETE)).andThen
    (bustStage "PATCH".toList a.bustPATCH)).andThen
    (bustStage "TRACE".toList a.bustTRACE)).andThen
    (bustStage "CONNECT".toList a.bustCONNECT)).andThen
    (bustStage "OPTIONS".toList a.bustOPTIONS)).andThen
    fun c =>
      let c := c.TrimTrailingSlash
      let c := c.RemoveInvalidHTTPMethods
      match c.Validate with
      | some err => Outcome.returned c (some err)
      | none => Outcome.returned c none

/-- The bust flag values of each method, in the order `addToConfig` handles them. -/
def cliArgs.bustFlags (a : cliArgs) : List (Str × List Str) :=
  [("GET".toList, a.bustGET), ("HEAD".toList, a.bustHEAD), ("POST".toList, a.bustPOST),
    ("PUT".toList, a.bustPUT), ("DELETE".toList, a.bustDELETE), ("PATCH".toList, a.bustPATCH),
    ("TRACE".toList, a.bustTRACE), ("CONNECT".toList, a.bustCONNECT),
    ("OPTIONS".toList, a.bustOPTIONS)]

/-! ### `internal/router/router.go` -/

/-- The handlers the router registers. `injectCtxCache(cache)` is defined in
`router.go` and holds the address of the cache. The other constructors stand for
`createBustMiddleware(patterns)`, `readCacheMiddleware`,
`createProxyMiddleware(apiUrl)`, `writeCacheMiddleware` and
`createProxyHandler(apiUrl)`, which belong to files of the package that are not
among the sources. -/
inductive Handler
  | injectCtxCache (cache : Nat)
  | createBustMiddleware (patterns : List Str)
  | readCacheMiddleware
  | createProxyMiddleware (apiUrl : Str)
  | writeCacheMiddleware
  | createProxyHandler (apiUrl : Str)
  deriving DecidableEq

/-- A registration on the `*fiber.App`: `app.Use(handler)` (no mount path),
`app.Use(mount, handler)`, `app.Add(method, path, handlers...)` or
`app.Get(path, handlers...)`. -/
inductive Registration
  | use (mount : Option Str) (handler : Handler)
  | add (method path : Str) (handlers : List Handler)
  | get (path : Str) (handlers : List Handler)
  deriving DecidableEq

/-- The `*fiber.App` as the router sees it: its handler table, the registrations in
the order in which they were made. -/
abbrev App := List Registration

/-- Go `app.Use(handler)` and `app.Use(mount, handler)`. -/
def App.Use (app : App) (mount : Option Str) (handler : Handler) : App :=
  app ++ [Registration.use mount handler]

/-- Go `app.Add(method, path, handlers...)`. -/
def App.Add (app : App) (method path : Str) (handlers : List Handler) : App :=
  app ++ [Registration.add method path handlers]

/-- Go `app.Get(path, handlers...)`. -/
def App.Get (app : App) (path : Str) (handlers : List Handler) : App :=
  app ++ [Registration.get path handlers]

/-- The fields of `config.Config` that `router.go` reads (the declaration of the
type is not among the sources). `router.go` ranges over `conf.Cache` and hands
each element to `app.Get` as the path, a `string`: `Cache` is the list of cacheable
route templates there (in `cli.go` it is indexed by method); `Bust` is the mapping
`method → {routeTemplate → [regexPattern]}`. -/
structure RouterConfig where
  ApiUrl : Str
  Cache : List Str
  Bust : GoMap Str (GoMap Str (List Str))
  deriving DecidableEq

/-- The sequences in which the nested loops
`for method, endpointMap := range conf.Bust { for endpoint, patterns := range endpointMap`
may visit a map of maps: the methods in some order, and under each method its
endpoints in some order. -/
def NestedRangeOrder (bust : GoMap Str (GoMap Str (List Str)))
    (visit : List (Str × List (Str × List Str))) : Prop :=
  ∃ outer, RangeOrder bust outer ∧
    List.Forall₂ (fun e v => v.1 = e.1 ∧ RangeOrder e.2 v.2) outer visit

/-- Go `setBustingEndpoints(app, conf)`; `visit` is the order in which the two
`range` loops visit `conf.Bust`. -/
def setBustingEndpoints (app : App) (visit : List (Str × List (Str × List Str))) : App :=
  visit.foldl
    (fun app me =>
      me.2.foldl
        (fun app ep => App.Add app me.1 ep.1 [Handler.createBustMiddleware ep.2])
        app)
    app

/-- Go `setCachingEndpoints(app, conf)`. -/
def setCachingEndpoints (app : App) (conf : RouterConfig) : App :=
  conf.Cache.foldl
    (fun app endpoint =>
      App.Get app endpoint
        [Handler.readCacheMiddleware, Handler.createProxyMiddleware conf.ApiUrl,
          Handler.writeCacheMiddleware])
    app

/-- Go `Start(conf, port, cache)`, up to the call of `app.Listen`: the handler table
that has been built and the address the server is started on. `fiber.New` gives
an app without registrations; `visit` is the order in which `conf.Bust` is
visited. -/
def Start (conf : RouterConfig) (port : Str) (cache : Nat)
    (visit : List (Str × List (Str × List Str))) : App × Str :=
  let app : App := []
  let app := App.Use app none (Handler.injectCtxCache cache)
  let app := setBustingEndpoints app visit
  let app := setCachingEndpoints app conf
  let app := App.Use app (some ['*']) (Handler.createProxyHandler conf.ApiUrl)
  (app, "localhost:".toList ++ port)

/-- The bust stages a configuration asks for: one `app.Add(method, route, bust)` for
each route of each method, carrying the patterns of that route. -/
def SpecBustStages (bust : GoMap Str (GoMap Str (List Str))) : List Registration :=
  bust.flatMap
    (fun me => me.2.map
      (fun ep => Registration.add me.1 ep.1 [Handler.createBustMiddleware ep.2]))

/-- The caching pipelines a configuration asks for: for each cacheable route the
three stages read-cache, proxy to `ApiUrl`, write-cache. -/
def SpecCachingStages (conf : RouterConfig) : List Registration :=
  conf.Cache.map
    (fun endpoint => Registration.get endpoint
      [Handler.readCacheMiddleware, Handler.createProxyMiddleware conf.ApiUrl,
        Handler.writeCacheMiddleware])

/-- The handlers of a registration. -/
def Registration.handlers : Registration → List Handler
  | Registration.use _ h => [h]
  | Registration.add _ _ hs => hs
  | Registration.get _ hs => hs

/-- The registration holds a bust stage. -/
def Registration.busts (r : Registration) : Bool :=
  r.handlers.any (fun h => match h with | Handler.createBustMiddleware _ => true | _ => false)

/-- The registration holds a handler that proxies the request upstream. -/
def Registration.proxies (r : Registration) : Bool :=
  r.handlers.any
    (fun h => match h with
      | Handler.createProxyMiddleware _ => true
      | Handler.createProxyHandler _ => true
      | _ => false)

/-- The registration holds a stage of the caching pipeline. -/
def Registration.caches (r : Registration) : Bool :=
  r.handlers.any
    (fun h => match h with
      | Handler.readCacheMiddleware => true
      | Handler.createProxyMiddleware _ => true
      | Handler.writeCacheMiddleware => true
      | _ => false)

/-! ### The LRU store of package `cache` -/

/-- Modelled from the spec: the cache entry (package `cache`; its declaration is
not among the sources). "Fields: `status`, `headers`, `body`, `size`: precomputed
byte cost"; the store "trusts and reuses this precomputed value". -/
structure Entry where
  status : Nat
  headers : List (Str × List Str)
  body : Str
  size : Nat
  deriving DecidableEq

/-- Modelled from the spec: the two capacity regimes of the store, "maximum count
of entries (entry-mode) or maximum byte budget (memory-mode)". -/
inductive Mode
  | entry
  | memory
  deriving DecidableEq

/-- Modelled from the spec: the state of the LRU store (type `cache.LRUCache`, not
among the sources). The spec's `index` (key → entry) and recency `list` ("`head` is
most-recently-used, `tail` is least-recently-used"), which it keeps "in 1:1
correspondence at all times", are held as one list of keys with their entries in
recency order, most recently used first. -/
structure Store where
  entries : List (Str × Entry)
  capacity : Nat
  mode : Mode
  deriving DecidableEq

/-- Modelled from the spec: "`used`: in entry-mode, `len(index)`; in memory-mode, sum
of `entry.size` for all resident entries". -/
def Store.used (s : Store) : Nat :=
  match s.mode with
  | Mode.entry => s.entries.length
  | Mode.memory => (s.entries.map (fun x => x.2.size)).sum

/-- Modelled from the spec: a store without entries. -/
def Store.empty (capacity : Nat) (mode : Mode) : Store :=
  { entries := [], capacity := capacity, mode := mode }

/-- Modelled from the spec: "`Keys() → [string]`. Snapshot of all resident keys",
here from most to least recently used. -/
def Store.Keys (s : Store) : List Str := s.entries.map Prod.fst

/-- Modelled from the spec: "`Get(key) → entry?`. If `key` resident: move its node to
the front and return the entry. If not: return absent." -/
def Store.Get (s : Store) (key : Str) : Store × Option Entry :=
  match GoMap.get? s.entries key with
  | some e => ({ s with entries := (key, e) :: s.entries.filter (fun x => x.1 ≠ key) }, some e)
  | none => (s, none)

/-- Modelled from the spec: the eviction loop of `Set`, "while `used > capacity`,
evict the tail. Each eviction removes one entry from both `index` and `list`". The
first argument bounds the number of rounds; a store holds no more entries than
its length, so `Set` passes the number of entries. -/
def Store.evict : Nat → Store → Store
  | 0, s => s
  | n + 1, s =>
    if s.capacity < s.used ∧ s.entries ≠ [] then
      Store.evict n { s with entries := s.entries.dropLast }
    else s

/-- Modelled from the spec: "`Set(key, entry)`. If `key` already resident: replace
entry in place, move to front. If not: insert at front. Then, while
`used > capacity`, evict the tail." An entry that does not fit is evicted by the
loop itself, after everything else, and the caller is notified by the "too-large"
error: the second component of the result. -/
def Store.Set (s : Store) (key : Str) (entry : Entry) : Store × Bool :=
  let s1 := { s with entries := (key, entry) :: s.entries.filter (fun x => x.1 ≠ key) }
  let s2 := Store.evict s1.entries.length s1
  (s2, (GoMap.get? s2.entries key).isNone)

/-- Modelled from the spec: "`Delete(keys...)`. For each resident key, unlink and
remove. Missing keys are silently ignored. Returns the count actually removed." -/
def Store.Delete (s : Store) (keys : List Str) : Store × Nat :=
  ({ s with entries := s.entries.filter (fun x => x.1 ∉ keys) },
    (s.entries.filter (fun x => x.1 ∈ keys)).length)

/-- A `Get` or a `Set` on the store. -/
inductive Op
  | get (key : Str)
  | set (key : Str) (entry : Entry)
  deriving DecidableEq

/-- The key an operation names. -/
def Op.key : Op → Str
  | Op.get k => k
  | Op.set k _ => k

/-- The store after one operation. -/
def Store.step (s : Store) : Op → Store
  | Op.get k => (s.Get k).1
  | Op.set k e => (s.Set k e).1

/-- The store after a sequence of operations. -/
def Store.run (s : Store) (ops : List Op) : Store := ops.foldl Store.step s

/-- The time of the last `Get` or `Set` of `key` in a history given latest first:
the position of that operation in the history, counted from 1, and 0 when there
is none. -/
def lastAccessRev : List Op → Str → Nat
  | [], _ => 0
  | op :: earlier, key => if op.key = key then earlier.length + 1 else lastAccessRev earlier key

/-- The time of the last `Get` or `Set` of `key` in the history `ops`. -/
def SpecLastAccess (ops : List Op) (key : Str) : Nat := lastAccessRev ops.reverse key


/-! ### The parts of `addToConfig` -/

/-- The configuration after a well-formed flag value of `method` has been
recorded. -/
def recordValue (method : Str) (c : Config) (args : Str) : Config :=
  { c with
    Bust := GoMap.put c.Bust method
      (GoMap.put ((GoMap.get? c.Bust method).getD []) (bustRoute args) (bustPatternsOf args)) }

/-- The second configuration has the scalar fields and the `Cache` of the first. -/
def SameScalars (c c' : Config) : Prop :=
  c'.Capacity = c.Capacity ∧ c'.CapacityUnit = c.CapacityUnit ∧ c'.Hostname = c.Hostname ∧
    c'.Port = c.Port ∧ c'.ApiUrl = c.ApiUrl ∧ c'.LogFilePath = c.LogFilePath ∧
    c'.Cache = c.Cache

/-- The nine bust blocks of `addToConfig` in sequence, started on the outcome `o`. -/
def runStages (stages : List (Str × List Str)) (o : Outcome) : Outcome :=
  stages.foldl (fun o mv => o.andThen (bustStage mv.1 mv.2)) o

/-- The configuration after all flag values of the given methods have been
recorded. -/
def recordStages (stages : List (Str × List Str)) (c : Config) : Config :=
  stages.foldl (fun c mv => mv.2.foldl (recordValue mv.1) c) c

/-- The last steps of `addToConfig`, after the bust blocks. -/
def finish (c : Config) : Outcome :=
  match c.TrimTrailingSlash.RemoveInvalidHTTPMethods.Validate with
  | some err => Outcome.returned c.TrimTrailingSlash.RemoveInvalidHTTPMethods (some err)
  | none => Outcome.returned c.TrimTrailingSlash.RemoveInvalidHTTPMethods none

/-- The configuration after the scalar flags have been applied. -/
def applyScalars (new : Config) (a : cliArgs) (c : Option Config) : Config :=
  let c := c.getD new
  let c := if a.capacity ≠ 0 then { c with Capacity := a.capacity } else c
  let c := if a.capacityUnit ≠ [] then { c with CapacityUnit := a.capacityUnit } else c
  let c := if a.hostname ≠ [] then { c with Hostname := a.hostname } else c
  let c := if a.port ≠ 0 then { c with Port := a.port } else c
  let c := if a.apiUrl ≠ [] then { c with ApiUrl := a.apiUrl } else c
  if a.logFilePath ≠ [] then { c with LogFilePath := a.logFilePath } else c

/-- The two cache blocks of `addToConfig` in sequence. -/
def cacheStages (a : cliArgs) (c : Config) : Outcome :=
  (cacheStage "GET".toList a.cacheGET c).andThen (cacheStage "HEAD".toList a.cacheHEAD)

/-! ### Sample configurations and command lines -/

/-- A configuration with zero values in the scalar fields, an empty map in `Cache`,
and an empty inner map in `Bust` for each of the nine methods. -/
def emptyConfig : Config :=
  { Capacity := 0, CapacityUnit := [], Hostname := [], Port := 0, ApiUrl := [],
    LogFilePath := [], Cache := some [], Bust := bustMethods.map (fun m => (m, [])) }

/-- A command line without flags. -/
def noFlags : Flags :=
  { config := none, capacity := none, capacityUnit := none, hostname := none, port := none,
    apiUrl := none, logfile := none, cacheGET := [], cacheHEAD := [], bustGET := [],
    bustHEAD := [], bustPOST := [], bustPUT := [], bustDELETE := [], bustPATCH := [],
    bustTRACE := [], bustCONNECT := [], bustOPTIONS := [] }

/-- A configuration as a file may give it: the values of `test.config.json` that
`TestConfigFileParsing` checks, for the scalar fields and the `GET` cache. -/
def fileConfig : Config :=
  { emptyConfig with
    Capacity := 555
    CapacityUnit := "mb".toList
    Hostname := "localhost".toList
    Port := 8080
    ApiUrl := "https://jsonplaceholder.typicode.com".toList
    LogFilePath := "logfile.log".toList
    Cache := some [("GET".toList, ["/posts".toList, "/posts/:id".toList])] }

/-- The flags of `generateArgs` in `cli_test.go`. -/
def testFlags : Flags :=
  { config := none
    capacity := some 555
    capacityUnit := some "mb".toList
    hostname := some "localhost".toList
    port := some 8080
    apiUrl := some "https://jsonplaceholder.typicode.com/".toList
    logfile := some "logfile.log".toList
    cacheGET := ["/posts".toList, "/posts/:id".toList]
    cacheHEAD := ["/posts,/posts/:id".toList]
    bustGET := ["/todos=>/posts".toList]
    bustHEAD := ["/todos=>/posts".toList]
    bustPOST := ["/posts=>/posts".toList]
    bustPUT := ["/posts=>^GET:/posts||^HEAD:/posts".toList, "/posts/:id=>/posts/:id".toList]
    bustDELETE := ["/posts/:id=>/posts".toList]
    bustPATCH := ["/posts/:id=>/posts".toList]
    bustTRACE := ["/posts/:id=>/posts".toList]
    bustCONNECT := ["/posts=>/posts".toList]
    bustOPTIONS := ["/posts=>/posts".toList] }

/-- A configuration with one cacheable route and bust routes under two methods. -/
def routerConfig : RouterConfig :=
  { ApiUrl := "https://jsonplaceholder.typicode.com".toList
    Cache := ["/posts".toList, "/posts/:id".toList]
    Bust :=
      [("POST".toList, [("/posts".toList, ["^GET:/posts".toList])]),
        ("PUT".toList,
          [("/posts".toList, ["^GET:/posts".toList, "^HEAD:/posts".toList]),
            ("/posts/:id".toList, ["^GET:/posts/:id".toList])])] }

/-- An order in which `routerConfig.Bust` may be visited. -/
def routerVisit : List (Str × List (Str × List Str)) :=
  [("PUT".toList,
      [("/posts/:id".toList, ["^GET:/posts/:id".toList]),
        ("/posts".toList, ["^GET:/posts".toList, "^HEAD:/posts".toList])]),
    ("POST".toList, [("/posts".toList, ["^GET:/posts".toList])])]

/-- An entry as the test scenarios of the specification use it: a response of
status 200 whose precomputed size is given. -/
def sampleEntry (size : Nat) : Entry :=
  { status := 200, headers := [], body := [], size := size }

/-! ### Vocabulary of the specification -/

/-- The specification's "every literal occurrence of `old` replaced by `new`, from
left to right and without overlap", for a non-empty `old`, as a relation between
the string before and the string after: either `old` does not occur at all and
the string is unchanged, or the string is `pre ++ old ++ rest` with this
occurrence the leftmost one, and the result is `pre ++ new` followed by the
result for `rest`. -/
inductive SpecReplaced (old new : Str) : Str → Str → Prop
  | none (s : Str) : ¬ old <:+: s → SpecReplaced old new s s
  | next (pre rest t : Str) : ¬ old <:+: (pre ++ old).dropLast →
      SpecReplaced old new rest t → SpecReplaced old new (pre ++ old ++ rest) (pre ++ new ++ t)

/-- The specification's proviso for order independence: "no value contains a
substring of the form `:otherName`" for another bound name. -/
def SpecProviso (paramMap : GoMap Str Str) : Prop :=
  ∀ x ∈ paramMap, ∀ y ∈ paramMap, y.1 ≠ x.1 → ¬ (':' :: y.1) <:+: x.2

/-- Two bindings whose replacements cannot interfere: neither name and neither
value contains `':'`, neither name is a prefix of the other, and each value is
non-empty with a first byte that does not occur in the other name. -/
def Independent (x y : Str × Str) : Prop :=
  ':' ∉ x.1 ∧ ':' ∉ y.1 ∧ ':' ∉ x.2 ∧ ':' ∉ y.2 ∧ ¬ x.1 <+: y.1 ∧ ¬ y.1 <+: x.1 ∧
    (∃ c, x.2.head? = some c ∧ c ∉ y.1) ∧ (∃ c, y.2.head? = some c ∧ c ∉ x.1)

/-- The number of positions of `s` at which `sep` occurs. -/
def SpecOccurrences (sep : Str) : Str → Nat
  | [] => 0
  | c :: cs => (if sep.isPrefixOf (c :: cs) then 1 else 0) + SpecOccurrences sep cs

/-- The bust flag grammar `ROUTE "=>" PATTERN ("||" PATTERN)*` with a non-empty
route and a non-empty pattern list: `"=>"` occurs at exactly one position, and
neither at the beginning nor at the end. -/
def SpecWellFormed (args : Str) : Prop :=
  SpecOccurrences RouteSepChar args = 1 ∧ ¬ RouteSepChar <+: args ∧ ¬ RouteSepChar <:+ args

/-- The patterns found under `route` after the flag values `values` of one method
have been recorded, when `old` was found there before: those of the last value
that names `route`, and `old` when no value names it. -/
def SpecStored (values : List Str) (route : Str) (old : Option (List Str)) :
    Option (List Str) :=
  values.foldl (fun acc args => if bustRoute args = route then some (bustPatternsOf args) else acc)
    old

/-! ## Lemmas -/

/-! ### `ReplaceAll` -/

theorem replaceFrom_skip (old new : Str) (k : Nat) (s : Str) :
    replaceFrom old new k s = replaceFrom old new 0 (s.drop k) := by
  induction s generalizing k with
  | nil => cases k <;> simp [replaceFrom]
  | cons c cs ih =>
    cases k with
    | zero => simp
    | succ k => simp [replaceFrom, ih k]

theorem ReplaceAll_nil (old new : Str) (h : old ≠ []) : ReplaceAll [] old new = [] := by
  simp [ReplaceAll, h, replaceFrom]

theorem ReplaceAll_at_occurrence (old new rest : Str) (h : old ≠ []) :
    ReplaceAll (old ++ rest) old new = new ++ ReplaceAll rest old new := by
  cases old with
  | nil => exact absurd rfl h
  | cons o os =>
    have hp : (o :: os).isPrefixOf (o :: (os ++ rest)) = true := by
      rw [List.isPrefixOf_iff_prefix]; exact List.prefix_append (o :: os) rest
    simp only [ReplaceAll, h, if_false, List.cons_append, replaceFrom, hp, if_true]
    rw [replaceFrom_skip]
    simp

theorem ReplaceAll_cons (old new : Str) (c : Char) (cs : Str) (h : old ≠ [])
    (hp : ¬ old <+: c :: cs) :
    ReplaceAll (c :: cs) old new = c :: ReplaceAll cs old new := by
  have hp2 : old.isPrefixOf (c :: cs) = false := by
    rw [← Bool.not_eq_true, List.isPrefixOf_iff_prefix]; exact hp
  simp [ReplaceAll, h, replaceFrom, hp2]

theorem not_infix_dropLast_self (old : Str) (h : old ≠ []) : ¬ old <:+: old.dropLast := by
  intro hi
  have := hi.length_le
  have h2 : 0 < old.length := List.length_pos.mpr h
  simp at this
  omega

theorem ReplaceAll_spec (old new : Str) (h : old ≠ []) (s : Str) :
    SpecReplaced old new s (ReplaceAll s old new) := by
  generalize hn : s.length = n
  induction n using Nat.strong_induction_on generalizing s with
  | _ n ih =>
    by_cases hp : old <+: s
    · obtain ⟨rest, rfl⟩ := hp
      rw [ReplaceAll_at_occurrence old new rest h]
      have hlen : rest.length < n := by
        have h2 : 0 < old.length := List.length_pos.mpr h
        simp at hn; omega
      have := SpecReplaced.next [] rest _ (by simpa using not_infix_dropLast_self old h)
        (ih rest.length hlen rest rfl)
      simpa using this
    · cases s with
      | nil =>
        rw [ReplaceAll_nil old new h]
        exact SpecReplaced.none [] (by simpa using h)
      | cons c cs =>
        rw [ReplaceAll_cons old new c cs h hp]
        have hlen : cs.length < n := by simp at hn; omega
        have hrec := ih cs.length hlen cs rfl
        generalize ReplaceAll cs old new = t at hrec
        cases hrec with
        | none _ hno =>
          refine SpecReplaced.none _ ?_
          rw [List.infix_cons_iff]
          rintro (h1 | h1)
          · exact hp h1
          · exact hno h1
        | next pre rest t hleft hrest =>
          have hne : pre ++ old ≠ [] := by simp [h]
          have := SpecReplaced.next (c :: pre) rest t (by
            rw [List.cons_append, List.dropLast_cons_of_ne_nil hne, List.infix_cons_iff]
            rintro (h1 | h1)
            · apply hp
              refine h1.trans ?_
              rw [List.prefix_cons_inj]
              exact (List.dropLast_prefix _).trans (by simp)
            · exact hleft h1) hrest
          simpa using this
/-- A string in which `old` does not occur is left as it is. -/
theorem ReplaceAll_of_absent (old new s : Str) (h : old ≠ []) (hs : ¬ old <:+: s) :
    ReplaceAll s old new = s := by
  induction s with
  | nil => exact ReplaceAll_nil old new h
  | cons c cs ih =>
    rw [List.infix_cons_iff, not_or] at hs
    rw [ReplaceAll_cons old new c cs h hs.1, ih hs.2]

/-- The leftmost occurrence is the one that is replaced first. -/
theorem ReplaceAll_leftmost (old new pre rest : Str) (h : old ≠ [])
    (hleft : ¬ old <:+: (pre ++ old).dropLast) :
    ReplaceAll (pre ++ old ++ rest) old new = pre ++ new ++ ReplaceAll rest old new := by
  induction pre with
  | nil => simpa using ReplaceAll_at_occurrence old new rest h
  | cons x q ih =>
    have hne : q ++ old ≠ [] := by simp [h]
    rw [List.cons_append, List.dropLast_cons_of_ne_nil hne, List.infix_cons_iff, not_or] at hleft
    have hnot : ¬ old <+: x :: (q ++ old ++ rest) := by
      intro hp
      apply hleft.1
      have h1 : x :: (q ++ old).dropLast <+: x :: (q ++ old ++ rest) := by
        rw [List.cons_prefix_cons]
        exact ⟨rfl, (List.dropLast_prefix _).trans (List.prefix_append _ _)⟩
      refine List.prefix_of_prefix_length_le hp h1 ?_
      have : 0 < old.length := List.length_pos.mpr h
      simp
      omega
    have := ReplaceAll_cons old new x (q ++ old ++ rest) h hnot
    rw [ih hleft.2] at this
    simpa using this

/-- The relation of the specification determines the result: it is the string
`ReplaceAll` returns. -/
theorem SpecReplaced_unique (old new s t : Str) (h : old ≠ [])
    (hst : SpecReplaced old new s t) : t = ReplaceAll s old new := by
  induction hst with
  | none s hs => exact (ReplaceAll_of_absent old new s h hs).symm
  | next pre rest t hleft _ ih => rw [ReplaceAll_leftmost old new pre rest h hleft, ih]

/-! ### `Contains`, `Split` and `Join` -/

theorem Contains_iff (s sub : Str) : Contains s sub = true ↔ sub <:+: s := by
  induction s with
  | nil => cases sub <;> simp [Contains]
  | cons c cs ih =>
    rw [Contains, Bool.or_eq_true, ih, List.isPrefixOf_iff_prefix, List.infix_cons_iff]

theorem splitFrom_skip (sep : Str) (k : Nat) (s : Str) :
    splitFrom sep k s = splitFrom sep 0 (s.drop k) := by
  induction s generalizing k with
  | nil => cases k <;> simp [splitFrom]
  | cons c cs ih =>
    cases k with
    | zero => simp
    | succ k => simp [splitFrom, ih k]

theorem splitFrom_ne_nil (sep : Str) (k : Nat) (s : Str) : splitFrom sep k s ≠ [] := by
  induction s generalizing k with
  | nil => cases k <;> simp [splitFrom]
  | cons c cs ih =>
    cases k with
    | zero =>
      simp only [splitFrom]
      split
      · simp
      · split <;> simp
    | succ k => simpa [splitFrom] using ih k

theorem Split_ne_nil (s sep : Str) (h : sep ≠ []) : Split s sep ≠ [] := by
  simp only [Split, h, if_false]
  exact splitFrom_ne_nil sep 0 s

theorem Split_nil (sep : Str) (h : sep ≠ []) : Split [] sep = [[]] := by
  simp [Split, h, splitFrom]

theorem Split_at_occurrence (sep rest : Str) (h : sep ≠ []) :
    Split (sep ++ rest) sep = [] :: Split rest sep := by
  cases sep with
  | nil => exact absurd rfl h
  | cons o os =>
    have hp : (o :: os).isPrefixOf (o :: (os ++ rest)) = true := by
      rw [List.isPrefixOf_iff_prefix]; exact List.prefix_append (o :: os) rest
    simp only [Split, h, if_false, List.cons_append, splitFrom, hp, if_true]
    rw [splitFrom_skip]
    simp

theorem Split_cons (sep : Str) (c : Char) (cs : Str) (h : sep ≠ [])
    (hp : ¬ sep <+: c :: cs) :
    Split (c :: cs) sep = (c :: (Split cs sep).headD []) :: (Split cs sep).tail := by
  have hp2 : sep.isPrefixOf (c :: cs) = false := by
    rw [← Bool.not_eq_true, List.isPrefixOf_iff_prefix]; exact hp
  have hne := splitFrom_ne_nil sep 0 cs
  simp only [Split, h, if_false, splitFrom, hp2]
  cases hsp : splitFrom sep 0 cs with
  | nil => exact absurd hsp hne
  | cons p ps => simp

theorem Join_cons_of_ne_nil (p : Str) (ps : List Str) (sep : Str) (h : ps ≠ []) :
    Join (p :: ps) sep = p ++ sep ++ Join ps sep := by
  cases ps with
  | nil => exact absurd rfl h
  | cons q qs => rfl

theorem Join_Split (s sep : Str) (h : sep ≠ []) : Join (Split s sep) sep = s := by
  generalize hn : s.length = n
  induction n using Nat.strong_induction_on generalizing s with
  | _ n ih =>
    by_cases hp : sep <+: s
    · obtain ⟨rest, rfl⟩ := hp
      have hlen : rest.length < n := by
        have h2 : 0 < sep.length := List.length_pos.mpr h
        simp at hn; omega
      rw [Split_at_occurrence _ _ h, Join_cons_of_ne_nil _ _ _ (Split_ne_nil _ _ h),
        ih _ hlen rest rfl]
      simp
    · cases s with
      | nil => rw [Split_nil _ h]; rfl
      | cons c cs =>
        have hlen : cs.length < n := by simp at hn; omega
        have hrec := ih _ hlen cs rfl
        rw [Split_cons _ _ _ h hp]
        have hne := Split_ne_nil cs sep h
        cases hsp : Split cs sep with
        | nil => exact absurd hsp hne
        | cons p ps =>
          rw [hsp] at hrec
          cases ps with
          | nil => simpa [Join] using hrec
          | cons q qs =>
            simp only [Join, List.headD_cons, List.tail_cons] at hrec ⊢
            rw [← hrec]; simp

theorem Split_of_absent (s sep : Str) (h : sep ≠ []) (hs : ¬ sep <:+: s) :
    Split s sep = [s] := by
  induction s with
  | nil => exact Split_nil sep h
  | cons c cs ih =>
    rw [List.infix_cons_iff, not_or] at hs
    rw [Split_cons _ _ _ h hs.1, ih hs.2]
    rfl

/-- The first piece of a split is a prefix of the string. -/
theorem Split_head_before (s sep : Str) (h : sep ≠ []) : (Split s sep).headD [] <+: s := by
  have hj := Join_Split s sep h
  have hne := Split_ne_nil s sep h
  cases hsp : Split s sep with
  | nil => exact absurd hsp hne
  | cons p ps =>
    rw [hsp] at hj
    cases ps with
    | nil => simp only [Join] at hj; simp [hj]
    | cons q qs =>
      simp only [Join] at hj
      rw [List.headD_cons, ← hj, List.append_assoc]
      exact List.prefix_append _ _

/-- No piece of a split contains the separator. -/
theorem Split_pieces (s sep : Str) (h : sep ≠ []) : ∀ p ∈ Split s sep, ¬ sep <:+: p := by
  generalize hn : s.length = n
  induction n using Nat.strong_induction_on generalizing s with
  | _ n ih =>
    by_cases hp : sep <+: s
    · obtain ⟨rest, rfl⟩ := hp
      have hlen : rest.length < n := by
        have h2 : 0 < sep.length := List.length_pos.mpr h
        simp at hn; omega
      rw [Split_at_occurrence _ _ h]
      intro p hmem
      rcases List.mem_cons.mp hmem with rfl | hmem
      · simpa using h
      · exact ih _ hlen rest rfl p hmem
    · cases s with
      | nil =>
        rw [Split_nil _ h]
        intro p hmem
        have : p = [] := by simpa using hmem
        subst this
        simpa using h
      | cons c cs =>
        have hlen : cs.length < n := by simp at hn; omega
        have hrec := ih _ hlen cs rfl
        have hpre := Split_head_before cs sep h
        have hne := Split_ne_nil cs sep h
        rw [Split_cons _ _ _ h hp]
        cases hsp : Split cs sep with
        | nil => exact absurd hsp hne
        | cons q qs =>
          rw [hsp] at hrec hpre
          intro p hmem
          simp only [List.headD_cons, List.tail_cons] at hmem hpre
          rcases List.mem_cons.mp hmem with rfl | hmem
          · rw [List.infix_cons_iff, not_or]
            refine ⟨fun hq => hp (hq.trans ?_), hrec q (List.mem_cons_self _ _)⟩
            exact List.cons_prefix_cons.mpr ⟨rfl, hpre⟩
          · exact hrec p (List.mem_cons_of_mem _ hmem)

/-- Splitting at a two-byte separator that occurs leftmost right after `p`. -/
theorem Split_two (a b : Char) (p rest : Str) (hp : ¬ [a, b] <:+: p)
    (hend : a = b → p.getLast? ≠ some a) :
    Split (p ++ [a, b] ++ rest) [a, b] = p :: Split rest [a, b] := by
  induction p with
  | nil => simpa using Split_at_occurrence [a, b] rest (by simp)
  | cons x q ih =>
    rw [List.infix_cons_iff, not_or] at hp
    have hnot : ¬ [a, b] <+: x :: (q ++ [a, b] ++ rest) := by
      intro hpre
      rw [List.cons_prefix_cons] at hpre
      obtain ⟨hax, hpre⟩ := hpre
      cases q with
      | nil =>
        simp only [List.nil_append, List.cons_append, List.cons_prefix_cons] at hpre
        exact hend hpre.1.symm (by simp [hax])
      | cons y q2 =>
        simp only [List.cons_append, List.cons_prefix_cons] at hpre
        apply hp.1
        rw [hax, hpre.1]
        simp [List.cons_prefix_cons]
    have hend2 : a = b → q.getLast? ≠ some a := by
      intro hab hq
      apply hend hab
      cases q with
      | nil => simp at hq
      | cons y q2 => rw [List.getLast?_cons_cons]; exact hq
    have := Split_cons [a, b] x (q ++ [a, b] ++ rest) (by simp) hnot
    rw [ih hp.2 hend2] at this
    simpa using this

/-- For a separator of two different bytes, occurrences cannot overlap, and
`Split` returns one piece more than there are occurrences. -/
theorem Split_length (a b : Char) (hab : a ≠ b) (s : Str) :
    (Split s [a, b]).length = SpecOccurrences [a, b] s + 1 := by
  generalize hn : s.length = n
  induction n using Nat.strong_induction_on generalizing s with
  | _ n ih =>
    by_cases hp : [a, b] <+: s
    · obtain ⟨rest, rfl⟩ := hp
      have hlen : rest.length < n := by simp at hn; omega
      rw [Split_at_occurrence _ _ (by simp), List.length_cons, ih _ hlen rest rfl]
      have h1 : List.isPrefixOf [a, b] (a :: b :: rest) = true := by
        rw [List.isPrefixOf_iff_prefix]; simp [List.cons_prefix_cons]
      have h2 : List.isPrefixOf [a, b] (b :: rest) = false := by
        rw [← Bool.not_eq_true, List.isPrefixOf_iff_prefix, List.cons_prefix_cons]
        exact fun hh => hab hh.1
      have hocc : SpecOccurrences [a, b] (a :: b :: rest) =
          1 + SpecOccurrences [a, b] rest := by
        show (if List.isPrefixOf [a, b] (a :: b :: rest) then 1 else 0) +
          ((if List.isPrefixOf [a, b] (b :: rest) then 1 else 0) +
            SpecOccurrences [a, b] rest) = _
        rw [h1, h2]; simp
      simp only [List.cons_append, List.nil_append, hocc]
      omega
    · cases s with
      | nil => rw [Split_nil _ (by simp)]; rfl
      | cons c cs =>
        have hlen : cs.length < n := by simp at hn; omega
        have hrec := ih _ hlen cs rfl
        have hne := Split_ne_nil cs [a, b] (by simp)
        have hp2 : List.isPrefixOf [a, b] (c :: cs) = false := by
          rw [← Bool.not_eq_true, List.isPrefixOf_iff_prefix]; exact hp
        rw [Split_cons _ _ _ (by simp) hp, SpecOccurrences, hp2]
        cases hsp : Split cs [a, b] with
        | nil => exact absurd hsp hne
        | cons q qs =>
          rw [hsp] at hrec
          simp at hrec ⊢
          omega

theorem infix_two_append (a b : Char) (l1 l2 : Str) (h : [a, b] <:+: l1 ++ l2) :
    [a, b] <:+: l1 ∨ [a, b] <:+: l2 ∨ (l1.getLast? = some a ∧ l2.head? = some b) := by
  induction l1 with
  | nil => exact Or.inr (Or.inl (by simpa using h))
  | cons x q ih =>
    rw [List.cons_append, List.infix_cons_iff] at h
    rcases h with hpre | hin
    · rw [List.cons_prefix_cons] at hpre
      obtain ⟨hax, hpre⟩ := hpre
      cases q with
      | nil =>
        refine Or.inr (Or.inr ⟨by simp [hax], ?_⟩)
        cases l2 with
        | nil => simp at hpre
        | cons y l2 =>
          simp only [List.nil_append, List.cons_prefix_cons] at hpre
          simp [hpre.1]
      | cons y q2 =>
        simp only [List.cons_append, List.cons_prefix_cons] at hpre
        refine Or.inl (List.IsPrefix.isInfix ?_)
        rw [hax, hpre.1]
        simp [List.cons_prefix_cons]
    · rcases ih hin with h1 | h2 | ⟨h3, h4⟩
      · exact Or.inl (List.infix_cons h1)
      · exact Or.inr (Or.inl h2)
      · refine Or.inr (Or.inr ⟨?_, h4⟩)
        cases q with
        | nil => simp at h3
        | cons y q2 => rw [List.getLast?_cons_cons]; exact h3

/-! ### Commuting replacements -/

theorem Independent.symm {x y : Str × Str} (h : Independent x y) : Independent y x := by
  obtain ⟨h1, h2, h3, h4, h5, h6, h7, h8⟩ := h
  exact ⟨h2, h1, h4, h3, h6, h5, h8, h7⟩

/-- A string without `':'` in front of the scanned text is copied as it is. -/
theorem ReplaceAll_append_inert (v s name new : Str) (hv : ':' ∉ v) :
    ReplaceAll (v ++ s) (':' :: name) new = v ++ ReplaceAll s (':' :: name) new := by
  induction v with
  | nil => rfl
  | cons x v ih =>
    have hx : ':' ≠ x := fun h => hv (by rw [h]; exact List.mem_cons_self _ _)
    have hv2 : ':' ∉ v := fun h => hv (List.mem_cons_of_mem _ h)
    rw [List.cons_append, ReplaceAll_cons _ _ _ _ (by simp), ih hv2]
    · rfl
    · intro hp
      rw [List.cons_prefix_cons] at hp
      exact hx hp.1

/-- Replacing `":" + name` by a non-empty value whose first byte does not occur in
`w` neither creates nor destroys an occurrence of `w` at the front, for `w` without
`':'`. -/
theorem prefix_ReplaceAll_iff (name v w : Str) (c : Char) (hw : ':' ∉ w) (hc : c ∉ w)
    (s : Str) :
    w <+: ReplaceAll s (':' :: name) (c :: v) ↔ w <+: s := by
  induction s generalizing w with
  | nil => rw [ReplaceAll_nil _ _ (by simp)]
  | cons d ds ih =>
    cases w with
    | nil => simp
    | cons x w =>
      have hx1 : x ≠ ':' := fun h => hw (by simp [h])
      have hx2 : x ≠ c := fun h => hc (by simp [h])
      by_cases hp : (':' :: name) <+: d :: ds
      · obtain ⟨rest, hrest⟩ := hp
        rw [← hrest, ReplaceAll_at_occurrence _ _ _ (by simp)]
        simp only [List.cons_append, List.cons_prefix_cons]
        constructor
        · intro h; exact absurd h.1 hx2
        · intro h; exact absurd h.1 hx1
      · rw [ReplaceAll_cons _ _ _ _ (by simp) hp]
        simp only [List.cons_prefix_cons]
        have hw2 : ':' ∉ w := fun h => hw (List.mem_cons_of_mem _ h)
        have hc2 : c ∉ w := fun h => hc (List.mem_cons_of_mem _ h)
        rw [ih w hw2 hc2]

/-- The replacements of two independent bindings commute on every string. -/
theorem ReplaceAll_comm (x y : Str × Str) (hxy : Independent x y) (s : Str) :
    ReplaceAll (ReplaceAll s (':' :: x.1) x.2) (':' :: y.1) y.2 =
      ReplaceAll (ReplaceAll s (':' :: y.1) y.2) (':' :: x.1) x.2 := by
  obtain ⟨a, va⟩ := x
  obtain ⟨b, vb⟩ := y
  obtain ⟨ha, hb, hva, hvb, hab, hba, ⟨ca, hca, hcab⟩, ⟨cb, hcb, hcba⟩⟩ := hxy
  simp only at ha hb hva hvb hab hba hca hcab hcb hcba ⊢
  obtain ⟨va', rfl⟩ : ∃ t, va = ca :: t := by
    cases va with
    | nil => simp at hca
    | cons u t => exact ⟨t, by simp at hca; rw [hca]⟩
  obtain ⟨vb', rfl⟩ : ∃ t, vb = cb :: t := by
    cases vb with
    | nil => simp at hcb
    | cons u t => exact ⟨t, by simp at hcb; rw [hcb]⟩
  -- an occurrence of one token at the front excludes the other
  have excl : ∀ (n m u : Str), ¬ n <+: m → ¬ m <+: n → (':' :: n) <+: u →
      ¬ (':' :: m) <+: u := by
    intro n m u hnm hmn h1 h2
    rcases List.prefix_or_prefix_of_prefix h1 h2 with h | h
    · exact hnm ((List.cons_prefix_cons.mp h).2)
    · exact hmn ((List.cons_prefix_cons.mp h).2)
  -- the token itself is copied by the other replacement
  have keep : ∀ (n m w t : Str), ':' ∉ n → ¬ (':' :: m) <+: (':' :: n) ++ t →
      ReplaceAll ((':' :: n) ++ t) (':' :: m) w = (':' :: n) ++ ReplaceAll t (':' :: m) w := by
    intro n m w t hn hnot
    have h1 := ReplaceAll_cons (':' :: m) w ':' (n ++ t) (by simp) hnot
    rw [ReplaceAll_append_inert _ _ _ _ hn] at h1
    exact h1
  generalize hn : s.length = n
  induction n using Nat.strong_induction_on generalizing s with
  | _ n ih =>
    by_cases hpa : (':' :: a) <+: s
    · have hpb : ¬ (':' :: b) <+: s := excl a b s hab hba hpa
      obtain ⟨t, rfl⟩ := hpa
      have hlen : t.length < n := by simp at hn; omega
      rw [ReplaceAll_at_occurrence _ _ _ (by simp), ReplaceAll_append_inert _ _ _ _ hva,
        keep a b _ t ha hpb, ReplaceAll_at_occurrence _ _ _ (by simp), ih _ hlen t rfl]
    · by_cases hpb : (':' :: b) <+: s
      · obtain ⟨t, rfl⟩ := hpb
        have hlen : t.length < n := by simp at hn; omega
        rw [ReplaceAll_at_occurrence _ _ _ (by simp), ReplaceAll_append_inert _ _ _ _ hvb,
          keep b a _ t hb hpa, ReplaceAll_at_occurrence _ _ _ (by simp), ih _ hlen t rfl]
      · cases s with
        | nil => rw [ReplaceAll_nil _ _ (by simp), ReplaceAll_nil _ _ (by simp),
            ReplaceAll_nil _ _ (by simp)]
        | cons d ds =>
          have hlen : ds.length < n := by simp at hn; omega
          have hpb2 : ¬ (':' :: b) <+: d :: ReplaceAll ds (':' :: a) (ca :: va') := by
            intro h
            rw [List.cons_prefix_cons, prefix_ReplaceAll_iff a va' b ca hb hcab] at h
            exact hpb (List.cons_prefix_cons.mpr h)
          have hpa2 : ¬ (':' :: a) <+: d :: ReplaceAll ds (':' :: b) (cb :: vb') := by
            intro h
            rw [List.cons_prefix_cons, prefix_ReplaceAll_iff b vb' a cb ha hcba] at h
            exact hpa (List.cons_prefix_cons.mpr h)
          rw [ReplaceAll_cons _ _ _ _ (by simp) hpa, ReplaceAll_cons _ _ _ _ (by simp) hpb,
            ReplaceAll_cons _ _ _ _ (by simp) hpb2, ReplaceAll_cons _ _ _ _ (by simp) hpa2,
            ih _ hlen ds rfl]

/-- Bindings that are pairwise independent can be applied in any order. -/
theorem hydrateList_perm (v1 v2 : List (Str × Str)) (hp : v1.Perm v2)
    (hind : v1.Pairwise Independent) (ps : List Str) :
    hydrateList v1 ps = hydrateList v2 ps := by
  unfold hydrateList
  refine List.Perm.foldl_eq' hp ?_ ps
  intro x hx y hy z
  by_cases hxy : x = y
  · subst hxy; rfl
  · have hI : Independent x y := hind.forall (fun _ _ h => h.symm) hx hy hxy
    simp only [List.map_map]
    refine List.map_congr_left ?_
    intro p _
    exact ReplaceAll_comm x y hI p

/-! ### The heap -/

theorem Heap.read_fresh (h : Heap) (x : List Str) : Heap.read (h ++ [x]) h.length = x := by
  simp [Heap.read, List.getD]

theorem Heap.set_fresh (h : Heap) (x y : List Str) : (h ++ [x]).set h.length y = h ++ [y] := by
  simp [List.set_append]

/-- Adding an array to the heap does not change what a slice reads as (a slice
that is not allocated reads as nil, and so does the array added for it). -/
theorem Heap.read_extend (h : Heap) (s : Slice) (x : List Str) (hx : s = h.length → x = []) :
    Heap.read (h ++ [x]) s = h.read s := by
  rcases Nat.lt_trichotomy s h.length with hlt | heq | hgt
  · simp [Heap.read, List.getD, List.getElem?_append_left hlt]
  · subst heq
    simp [Heap.read, List.getD, hx rfl]
  · have h1 : h.length ≤ s := Nat.le_of_lt hgt
    have h2 : (h ++ [x]).length ≤ s := by
      simp only [List.length_append, List.length_singleton]; omega
    simp [Heap.read, List.getD, List.getElem?_eq_none h1, List.getElem?_eq_none h2]

/-- Allocating the copy does not change what the argument slice reads as. -/
theorem Heap.read_after_make (h : Heap) (s : Slice) :
    Heap.read (h ++ [List.replicate (h.len s) []]) s = h.read s := by
  rcases Nat.lt_trichotomy s h.length with hlt | heq | hgt
  · simp [Heap.read, List.getD, List.getElem?_append_left hlt]
  · subst heq
    simp [Heap.read, Heap.len, List.getD]
  · have h1 : h.length ≤ s := Nat.le_of_lt hgt
    have h2 : (h ++ [List.replicate (h.len s) ([] : Str)]).length ≤ s := by
      simp only [List.length_append, List.length_singleton]; omega
    simp [Heap.read, List.getD, List.getElem?_eq_none h1, List.getElem?_eq_none h2]

/-- One iteration of the inner loop of `hydrateParams`, on the list level. -/
theorem loop_step (f : Str → Str) (ps : List Str) (k : Nat) (hk : k < ps.length) :
    ((ps.take k).map f ++ ps.drop k).set k (f (((ps.take k).map f ++ ps.drop k).getD k [])) =
      (ps.take (k + 1)).map f ++ ps.drop (k + 1) := by
  induction ps generalizing k with
  | nil => simp at hk
  | cons a as ih =>
    cases k with
    | zero => simp
    | succ k =>
      have hk2 : k < as.length := by simpa using hk
      have := ih k hk2
      simpa using this

/-- Loop invariant of the inner loop: after `k` iterations the first `k` elements
of the fresh array have been rewritten and the others are untouched. -/
theorem hydrateOne_upto (h : Heap) (ps : List Str) (param value : Str) (k : Nat)
    (hk : k ≤ ps.length) :
    (List.range k).foldl
      (fun h' i => Heap.store h' h.length i
        (ReplaceAll (Heap.index h' h.length i) (':' :: param) value)) (h ++ [ps]) =
      h ++ [(ps.take k).map (fun p => ReplaceAll p (':' :: param) value) ++ ps.drop k] := by
  induction k with
  | zero => simp
  | succ k ih =>
    have hk2 : k < ps.length := hk
    rw [List.range_succ, List.foldl_append, ih (Nat.le_of_lt hk2)]
    simp only [List.foldl_cons, List.foldl_nil, Heap.store, Heap.index, Heap.read_fresh,
      Heap.set_fresh]
    rw [loop_step _ ps k hk2]

theorem hydrateOne_fresh (h : Heap) (ps : List Str) (param value : Str) :
    hydrateOne (h ++ [ps]) h.length param value =
      h ++ [ps.map (fun p => ReplaceAll p (':' :: param) value)] := by
  have := hydrateOne_upto h ps param value ps.length (Nat.le_refl _)
  simpa [hydrateOne, Heap.len, Heap.read_fresh] using this

theorem hydrate_loop_fresh (h : Heap) (visit : List (Str × Str)) (ps : List Str) :
    visit.foldl (fun h' pv => hydrateOne h' h.length pv.1 pv.2) (h ++ [ps]) =
      h ++ [hydrateList visit ps] := by
  induction visit generalizing ps with
  | nil => simp [hydrateList]
  | cons pv rest ih =>
    simp only [List.foldl_cons, hydrateOne_fresh, ih]
    simp [hydrateList]

/-- The effect of `hydrateParams` on the heap: the arrays already there are left as
they were, and one array is added, which holds the hydrated patterns and is what
the returned slice refers to. -/
theorem hydrateParams_eq (h : Heap) (visit : List (Str × Str)) (s : Slice) :
    hydrateParams h visit s = (h ++ [hydrateList visit (h.read s)], h.length) := by
  have hcopy : copy (h ++ [List.replicate (h.len s) []]) h.length s = h ++ [h.read s] := by
    have h1 := Heap.read_after_make h s
    have h2 := Heap.read_fresh h (List.replicate (h.len s) [])
    simp only [copy, Heap.len] at h1 h2 ⊢
    rw [h1, h2, Heap.set_fresh]
    simp
  simp only [hydrateParams, make, hcopy, hydrate_loop_fresh]

theorem hydrated_eq (h : Heap) (visit : List (Str × Str)) (s : Slice) :
    hydrated h visit s = hydrateList visit (h.read s) := by
  simp [hydrated, hydrateParams_eq, Heap.read_fresh]

/-! ## Pattern hydration -/

/-- C1: for a parameter map holding the single binding `name -> value` (whose only
visiting order is that binding), the list returned by `hydrateParams` has, at each
position, the input pattern of that position with every occurrence of `":" + name`
replaced by `value`, from the left and without overlap; `"/users/:id"` with
`id = 123` becomes `"/users/123"`, and `"^GET:/posts/:id$"` with `id = 1` becomes
`"^GET:/posts/1$"`. -/
theorem hydrateParams_single_binding (h : Heap) (name value : Str) (templates : Slice)
    (visit : List (Str × Str)) (hv : RangeOrder [(name, value)] visit) :
    List.Forall₂
        (fun p q => SpecReplaced (':' :: name) value p q ∧ q = ReplaceAll p (':' :: name) value)
        (h.read templates) (hydrated h visit templates) ∧
      hydrated [["/users/:id".toList]] [("id".toList, "123".toList)] 0 =
        ["/users/123".toList] ∧
      hydrated [["^GET:/posts/:id$".toList]] [("id".toList, "1".toList)] 0 =
        ["^GET:/posts/1$".toList] := by
  have hvisit : visit = [(name, value)] := by
    simpa [RangeOrder] using hv
  subst hvisit
  refine ⟨?_, by decide, by decide⟩
  rw [hydrated_eq]
  simp only [hydrateList, List.foldl_cons, List.foldl_nil]
  rw [List.forall₂_map_right_iff]
  refine List.forall₂_same.mpr ?_
  intro p _
  exact ⟨ReplaceAll_spec _ _ (by simp) p, rfl⟩

theorem hydrateParams_single_binding_witness :
    List.Forall₂
        (fun p q => SpecReplaced (':' :: "id".toList) "42".toList p q ∧
          q = ReplaceAll p (':' :: "id".toList) "42".toList)
        (Heap.read [["^GET:/posts/:id".toList, "/posts".toList]] 0)
        (hydrated [["^GET:/posts/:id".toList, "/posts".toList]]
          [("id".toList, "42".toList)] 0) ∧
      hydrated [["/users/:id".toList]] [("id".toList, "123".toList)] 0 =
        ["/users/123".toList] ∧
      hydrated [["^GET:/posts/:id$".toList]] [("id".toList, "1".toList)] 0 =
        ["^GET:/posts/1$".toList] :=
  hydrateParams_single_binding [["^GET:/posts/:id".toList, "/posts".toList]]
    "id".toList "42".toList 0 [("id".toList, "42".toList)] (List.Perm.refl _)

theorem hydrateList_nil_patterns (visit : List (Str × Str)) : hydrateList visit [] = [] := by
  induction visit with
  | nil => rfl
  | cons pv rest ih => simpa [hydrateList] using ih

/-- C2 (as stated) fails: in each of the five parameter maps below no value contains
`":" + otherName`, and the two visiting orders of the map return different
patterns. The names `id` and `idx` (one a prefix of the other); a value `":"`; an
empty value; a value whose first byte continues another name; a name containing
`':'`. -/
theorem hydrateParams_order_counterexample :
    (SpecProviso [("id".toList, "1".toList), ("idx".toList, "2".toList)] ∧
      RangeOrder [("id".toList, "1".toList), ("idx".toList, "2".toList)]
        [("idx".toList, "2".toList), ("id".toList, "1".toList)] ∧
      hydrated [["/:idx".toList]] [("id".toList, "1".toList), ("idx".toList, "2".toList)] 0 =
        ["/1x".toList] ∧
      hydrated [["/:idx".toList]] [("idx".toList, "2".toList), ("id".toList, "1".toList)] 0 =
        ["/2".toList] ∧
      hydrated [["/:idx".toList]] [("id".toList, "1".toList), ("idx".toList, "2".toList)] 0 ≠
        hydrated [["/:idx".toList]] [("idx".toList, "2".toList), ("id".toList, "1".toList)] 0) ∧
    (SpecProviso [("a".toList, ":".toList), ("b".toList, "X".toList)] ∧
      hydrated [[":ab".toList]] [("a".toList, ":".toList), ("b".toList, "X".toList)] 0 =
        ["X".toList] ∧
      hydrated [[":ab".toList]] [("b".toList, "X".toList), ("a".toList, ":".toList)] 0 =
        [":b".toList]) ∧
    (SpecProviso [("x".toList, "".toList), ("ab".toList, "Y".toList)] ∧
      hydrated [[":a:xb".toList]] [("x".toList, "".toList), ("ab".toList, "Y".toList)] 0 =
        ["Y".toList] ∧
      hydrated [[":a:xb".toList]] [("ab".toList, "Y".toList), ("x".toList, "".toList)] 0 =
        [":ab".toList]) ∧
    (SpecProviso [("b".toList, "x".toList), ("ax".toList, "Y".toList)] ∧
      hydrated [[":a:b".toList]] [("b".toList, "x".toList), ("ax".toList, "Y".toList)] 0 =
        ["Y".toList] ∧
      hydrated [[":a:b".toList]] [("ax".toList, "Y".toList), ("b".toList, "x".toList)] 0 =
        [":ax".toList]) ∧
    (SpecProviso [("b".toList, "X".toList), ("a:b".toList, "Y".toList)] ∧
      hydrated [[":a:bc".toList]] [("b".toList, "X".toList), ("a:b".toList, "Y".toList)] 0 =
        [":aXc".toList] ∧
      hydrated [[":a:bc".toList]] [("a:b".toList, "Y".toList), ("b".toList, "X".toList)] 0 =
        ["Yc".toList]) := by
  unfold SpecProviso RangeOrder
  decide


/-- C2 (amended): when the bindings of the parameter map are pairwise independent
(no name and no value contains `':'`, no name is a prefix of another name, every
value is non-empty and its first byte occurs in no other name), `hydrateParams`
returns the same patterns whatever order the bindings are visited in. -/
theorem hydrateParams_order_independent (h : Heap) (paramMap : GoMap Str Str)
    (v1 v2 : List (Str × Str)) (templates : Slice)
    (hind : paramMap.Pairwise Independent)
    (h1 : RangeOrder paramMap v1) (h2 : RangeOrder paramMap v2) :
    hydrated h v1 templates = hydrated h v2 templates := by
  rw [hydrated_eq, hydrated_eq]
  have hp : v1.Perm v2 := h1.trans h2.symm
  have hind1 : v1.Pairwise Independent :=
    h1.symm.pairwise hind (fun hxy => hxy.symm)
  exact hydrateList_perm v1 v2 hp hind1 _

theorem independent_example :
    List.Pairwise Independent [("id".toList, "7".toList), ("slug".toList, "42".toList)] := by
  unfold Independent
  decide

theorem hydrateParams_order_independent_witness :
    hydrated [["^GET:/posts/:id/:slug$".toList]]
        [("id".toList, "7".toList), ("slug".toList, "42".toList)] 0 =
      hydrated [["^GET:/posts/:id/:slug$".toList]]
        [("slug".toList, "42".toList), ("id".toList, "7".toList)] 0 :=
  hydrateParams_order_independent [["^GET:/posts/:id/:slug$".toList]]
    [("id".toList, "7".toList), ("slug".toList, "42".toList)] _ _ 0
    independent_example (List.Perm.refl _) (List.Perm.swap _ _ _)

/-- C3 (as stated) fails: for the parameter map `{id: 1, idx: 2}` and the pattern
`"/:idx"`, a first call that visits `id` first returns `"/1x"` and a second call,
on the heap left by the first, that visits `idx` first returns `"/2"`. -/
theorem hydrateParams_twice_counterexample :
    RangeOrder [("id".toList, "1".toList), ("idx".toList, "2".toList)]
        [("id".toList, "1".toList), ("idx".toList, "2".toList)] ∧
      RangeOrder [("id".toList, "1".toList), ("idx".toList, "2".toList)]
        [("idx".toList, "2".toList), ("id".toList, "1".toList)] ∧
      hydrated [["/:idx".toList]] [("id".toList, "1".toList), ("idx".toList, "2".toList)] 0 =
        ["/1x".toList] ∧
      hydrated
          (hydrateParams [["/:idx".toList]]
            [("id".toList, "1".toList), ("idx".toList, "2".toList)] 0).1
          [("idx".toList, "2".toList), ("id".toList, "1".toList)] 0 =
        ["/2".toList] := by
  unfold RangeOrder
  decide

/-- C3 (amended): two consecutive calls of `hydrateParams` with the same parameter
map and the same pattern list return equal patterns when both calls visit the
bindings in the same order, and also, whatever the two orders, when the bindings
are pairwise independent; the second call returns a slice of its own and leaves
the patterns returned by the first call as they were. -/
theorem hydrateParams_twice (h : Heap) (paramMap : GoMap Str Str)
    (v1 v2 : List (Str × Str)) (templates : Slice)
    (h1 : RangeOrder paramMap v1) (h2 : RangeOrder paramMap v2)
    (hsame : v1 = v2 ∨ paramMap.Pairwise Independent) :
    hydrated (hydrateParams h v1 templates).1 v2 templates = hydrated h v1 templates ∧
      (hydrateParams (hydrateParams h v1 templates).1 v2 templates).2 ≠
        (hydrateParams h v1 templates).2 ∧
      Heap.read (hydrateParams (hydrateParams h v1 templates).1 v2 templates).1
          (hydrateParams h v1 templates).2 = hydrated h v1 templates := by
  have hread : Heap.read (h ++ [hydrateList v1 (h.read templates)]) templates =
      h.read templates := by
    apply Heap.read_extend
    intro hs
    have : h.read templates = [] := by
      subst hs
      simp [Heap.read, List.getD]
    rw [this, hydrateList_nil_patterns]
  have heq : hydrateList v2 (h.read templates) = hydrateList v1 (h.read templates) := by
    rcases hsame with rfl | hind
    · rfl
    · have hp : v2.Perm v1 := h2.trans h1.symm
      exact hydrateList_perm v2 v1 hp (h2.symm.pairwise hind (fun hxy => hxy.symm)) _
  refine ⟨?_, ?_, ?_⟩
  · rw [hydrated_eq, hydrated_eq, hydrateParams_eq]
    simp only [hread, heq]
  · simp [hydrateParams_eq]
  · rw [hydrated_eq]
    simp only [hydrateParams_eq]
    have := Heap.read_extend (h ++ [hydrateList v1 (h.read templates)]) h.length
      (hydrateList v2
        (Heap.read (h ++ [hydrateList v1 (h.read templates)]) templates))
      (by simp)
    rw [this, Heap.read_fresh]

theorem hydrateParams_twice_witness :
    hydrated
        (hydrateParams [["^GET:/posts/:id".toList]] [("id".toList, "42".toList)] 0).1
        [("id".toList, "42".toList)] 0 =
      hydrated [["^GET:/posts/:id".toList]] [("id".toList, "42".toList)] 0 ∧
      (hydrateParams
          (hydrateParams [["^GET:/posts/:id".toList]] [("id".toList, "42".toList)] 0).1
          [("id".toList, "42".toList)] 0).2 ≠
        (hydrateParams [["^GET:/posts/:id".toList]] [("id".toList, "42".toList)] 0).2 ∧
      Heap.read
          (hydrateParams
            (hydrateParams [["^GET:/posts/:id".toList]] [("id".toList, "42".toList)] 0).1
            [("id".toList, "42".toList)] 0).1
          (hydrateParams [["^GET:/posts/:id".toList]] [("id".toList, "42".toList)] 0).2 =
        hydrated [["^GET:/posts/:id".toList]] [("id".toList, "42".toList)] 0 :=
  hydrateParams_twice [["^GET:/posts/:id".toList]] [("id".toList, "42".toList)]
    [("id".toList, "42".toList)] [("id".toList, "42".toList)] 0
    (List.Perm.refl _) (List.Perm.refl _) (Or.inl rfl)

/-- C4: `hydrateParams` changes no array that existed before the call, so the input
pattern list reads after the call as it did before; the slice it returns refers
to an array that did not exist before the call, of the same length as the
input. -/
theorem hydrateParams_frame (h : Heap) (visit : List (Str × Str)) (templates : Slice) :
    (hydrateParams h visit templates).1.take h.length = h ∧
      Heap.read (hydrateParams h visit templates).1 templates = h.read templates ∧
      h.length ≤ (hydrateParams h visit templates).2 ∧
      Heap.len (hydrateParams h visit templates).1 (hydrateParams h visit templates).2 =
        h.len templates := by
  rw [hydrateParams_eq]
  refine ⟨by simp, ?_, Nat.le_refl _, ?_⟩
  · apply Heap.read_extend
    intro hs
    have : h.read templates = [] := by
      subst hs
      simp [Heap.read, List.getD]
    rw [this, hydrateList_nil_patterns]
  · simp only [Heap.len, Heap.read_fresh]
    unfold hydrateList
    generalize h.read templates = ps
    induction visit generalizing ps with
    | nil => rfl
    | cons pv rest ih => simp [ih]

/-! ## Bust arguments of the command line -/

theorem GoMap.get?_put_self {K V : Type} [DecidableEq K] (m : GoMap K V) (k : K) (v : V) :
    GoMap.get? (GoMap.put m k v) k = some v := by
  induction m with
  | nil => simp [GoMap.put, GoMap.get?]
  | cons e rest ih =>
    obtain ⟨k', v'⟩ := e
    by_cases hk : k' = k
    · simp [GoMap.put, GoMap.get?, hk]
    · simp [GoMap.put, GoMap.get?, hk, ih]

theorem GoMap.get?_put_of_ne {K V : Type} [DecidableEq K] (m : GoMap K V) (k k2 : K) (v : V)
    (h : k2 ≠ k) : GoMap.get? (GoMap.put m k v) k2 = GoMap.get? m k2 := by
  induction m with
  | nil =>
    have : ¬ k = k2 := fun hh => h hh.symm
    simp [GoMap.put, GoMap.get?, this]
  | cons e rest ih =>
    obtain ⟨k', v'⟩ := e
    by_cases hk : k' = k
    · subst hk
      have : ¬ k' = k2 := fun hh => h hh.symm
      simp [GoMap.put, GoMap.get?, this]
    · by_cases hk2 : k' = k2
      · subst hk2
        simp [GoMap.put, GoMap.get?, hk]
      · simp [GoMap.put, GoMap.get?, hk, hk2, ih]

/-- What `parseAndSetBustArgs` does, in terms of the pieces of the argument around
the route separator. -/
theorem parseAndSetBustArgs_eq (c : Config) (method args : Str) :
    parseAndSetBustArgs c method args =
      match Split args RouteSepChar with
      | [route, patternsString] =>
        if route = [] ∨ patternsString = [] then
          Outcome.returned c (some (newParseBustArgError method args))
        else
          match GoMap.get? c.Bust method with
          | none => Outcome.panicked
          | some endpoints =>
            Outcome.returned
              { c with
                Bust := GoMap.put c.Bust method
                  (GoMap.put endpoints route (Split patternsString PatternSepChar)) }
              none
      | _ => Outcome.returned c (some (newParseBustArgError method args)) := by
  have hsep : RouteSepChar ≠ [] := by simp [RouteSepChar]
  have hpsep : PatternSepChar ≠ [] := by simp [PatternSepChar]
  by_cases hc : Contains args RouteSepChar = true
  · unfold parseAndSetBustArgs
    simp only [hc, Bool.not_true, Bool.false_eq_true, if_false]
    rcases hsp : Split args RouteSepChar with _ | ⟨r, _ | ⟨p, _ | ⟨q, rest⟩⟩⟩
    · simp
    · simp
    · have hne : Split p PatternSepChar ≠ [] := Split_ne_nil p _ hpsep
      have hlen : (Split p PatternSepChar).length ≠ 0 := by
        rw [Ne, List.length_eq_zero]; exact hne
      by_cases hp : p = []
      · simp [hp]
      · by_cases hr : r = []
        · simp [hp, hr]
        · simp [hp, hr, hne]
    · simp
  · have hno : ¬ RouteSepChar <:+: args := fun h => hc ((Contains_iff _ _).mpr h)
    rw [Split_of_absent _ _ hsep hno]
    simp [parseAndSetBustArgs, hc]


/-- Patterns free of the pattern separator, of which only the last may end in
`'|'`, are recovered by splitting their join. -/
theorem Split_Join_patterns (patterns : List Str) (hne : patterns ≠ [])
    (hps : ∀ p ∈ patterns, ¬ PatternSepChar <:+: p)
    (hbar : ∀ p ∈ patterns.dropLast, p.getLast? ≠ some '|') :
    Split (Join patterns PatternSepChar) PatternSepChar = patterns := by
  induction patterns with
  | nil => exact absurd rfl hne
  | cons p rest ih =>
    cases rest with
    | nil =>
      exact Split_of_absent p _ (by simp [PatternSepChar]) (hps p (List.mem_cons_self _ _))
    | cons q rest2 =>
      have h1 : ¬ ['|', '|'] <:+: p := hps p (List.mem_cons_self _ _)
      have h2 : p.getLast? ≠ some '|' := hbar p (by simp [List.dropLast])
      have h3 := ih (by simp) (fun x hx => hps x (List.mem_cons_of_mem _ hx))
        (fun x hx => hbar x (by
          rw [List.dropLast_cons_of_ne_nil (by simp)]
          exact List.mem_cons_of_mem _ hx))
      have := Split_two '|' '|' p (Join (q :: rest2) PatternSepChar) h1 (fun _ => h2)
      exact this.trans (congrArg _ h3)

/-- Joining patterns free of the route separator with `"||"` does not create a
route separator. -/
theorem Join_patterns_no_route_sep (patterns : List Str)
    (hps : ∀ p ∈ patterns, ¬ RouteSepChar <:+: p) :
    ¬ RouteSepChar <:+: Join patterns PatternSepChar := by
  induction patterns with
  | nil => simp [Join, RouteSepChar]
  | cons p rest ih =>
    cases rest with
    | nil => exact hps p (List.mem_cons_self _ _)
    | cons q rest2 =>
      have h3 := ih (fun x hx => hps x (List.mem_cons_of_mem _ hx))
      have h1 : ¬ ['=', '>'] <:+: p := hps p (List.mem_cons_self _ _)
      intro hin
      rw [show Join (p :: q :: rest2) PatternSepChar =
        p ++ (['|', '|'] ++ Join (q :: rest2) PatternSepChar) from by
          simp [Join, PatternSepChar]] at hin
      rcases infix_two_append '=' '>' _ _ hin with h | h | ⟨_, h⟩
      · exact h1 h
      · rcases infix_two_append '=' '>' _ _ h with h | h | ⟨h, _⟩
        · have h5 : (['=', '>'] : Str) ≠ ['|', '|'] := by decide
          have h6 : (['=', '>'] : Str) = ['|', '|'] := List.IsInfix.eq_of_length h rfl
          exact h5 h6
        · exact h3 h
        · simp at h
      · simp at h


theorem Config.bustPatterns_put (c : Config) (method route : Str)
    (endpoints : GoMap Str (List Str)) (patterns : List Str) :
    Config.bustPatterns
        { c with Bust := GoMap.put c.Bust method (GoMap.put endpoints route patterns) }
        method route = some patterns := by
  simp [Config.bustPatterns, GoMap.get?_put_self]

/-- The pieces of an argument built from a route and a pattern string. -/
theorem Split_route (route patternsString : Str) (hr : ¬ RouteSepChar <:+: route)
    (hp : ¬ RouteSepChar <:+: patternsString) :
    Split (route ++ RouteSepChar ++ patternsString) RouteSepChar = [route, patternsString] := by
  have h1 := Split_two '=' '>' route patternsString hr (fun h => absurd h (by decide))
  have h2 := Split_of_absent patternsString RouteSepChar (by simp [RouteSepChar]) hp
  exact h1.trans (congrArg _ h2)

/-- C5 (as stated) fails: the route `"/posts"` and the patterns `"^GET:/posts|"`,
`"^HEAD:/posts"` satisfy what the claim asks of them, and the patterns stored
under the route are `"^GET:/posts"` and `"|^HEAD:/posts"`; and on a configuration
whose `Bust` has no map for the method the call panics. -/
theorem parseAndSetBustArgs_grammar_counterexample :
    ("/posts".toList ≠ [] ∧ ¬ RouteSepChar <:+: "/posts".toList ∧
      (∀ p ∈ ["^GET:/posts|".toList, "^HEAD:/posts".toList],
        ¬ RouteSepChar <:+: p ∧ ¬ PatternSepChar <:+: p) ∧
      Join ["^GET:/posts|".toList, "^HEAD:/posts".toList] PatternSepChar ≠ [] ∧
      ∃ c, parseAndSetBustArgs emptyConfig "PUT".toList
          ("/posts".toList ++ RouteSepChar ++
            Join ["^GET:/posts|".toList, "^HEAD:/posts".toList] PatternSepChar) =
          Outcome.returned c none ∧
        Config.bustPatterns c "PUT".toList "/posts".toList =
          some ["^GET:/posts".toList, "|^HEAD:/posts".toList]) ∧
    parseAndSetBustArgs { emptyConfig with Bust := [] } "PUT".toList
      ("/posts".toList ++ RouteSepChar ++ Join ["/posts".toList] PatternSepChar) =
      Outcome.panicked := by
  refine ⟨⟨by decide, by decide, by decide, by decide, _, rfl, by decide⟩, by decide⟩


/-- C5 (amended): for every method for which the configuration holds a map in
`Bust`, every non-empty route that does not contain `"=>"` and every non-empty list
of patterns none of which contains `"=>"` or `"||"`, whose join is not the empty
string and of which only the last may end in `'|'`, `parseAndSetBustArgs` applied
to `route ++ "=>" ++ p1 ++ "||" ++ ... ++ "||" ++ pn` returns no error and sets
`Bust[method][route]` to exactly `[p1, ..., pn]`. -/
theorem parseAndSetBustArgs_grammar (c : Config) (method route : Str) (patterns : List Str)
    (endpoints : GoMap Str (List Str))
    (hroute : route ≠ []) (hr : ¬ RouteSepChar <:+: route) (hne : patterns ≠ [])
    (hps : ∀ p ∈ patterns, ¬ RouteSepChar <:+: p ∧ ¬ PatternSepChar <:+: p)
    (hjoin : Join patterns PatternSepChar ≠ [])
    (hbar : ∀ p ∈ patterns.dropLast, p.getLast? ≠ some '|')
    (halloc : GoMap.get? c.Bust method = some endpoints) :
    ∃ c', parseAndSetBustArgs c method (route ++ RouteSepChar ++ Join patterns PatternSepChar) =
        Outcome.returned c' none ∧
      c' = { c with Bust := GoMap.put c.Bust method (GoMap.put endpoints route patterns) } ∧
      Config.bustPatterns c' method route = some patterns := by
  have hsplit := Split_route route (Join patterns PatternSepChar) hr
    (Join_patterns_no_route_sep patterns (fun p hp => (hps p hp).1))
  have hpat := Split_Join_patterns patterns hne (fun p hp => (hps p hp).2) hbar
  refine ⟨_, ?_, rfl, Config.bustPatterns_put c method route endpoints patterns⟩
  rw [parseAndSetBustArgs_eq, hsplit]
  simp only [hroute, hjoin, or_self, if_false, halloc, hpat]

theorem parseAndSetBustArgs_grammar_witness :
    ∃ c', parseAndSetBustArgs emptyConfig "PUT".toList
          ("/posts".toList ++ RouteSepChar ++
            Join ["^GET:/posts".toList, "^HEAD:/posts".toList] PatternSepChar) =
        Outcome.returned c' none ∧
      c' = { emptyConfig with
              Bust := GoMap.put emptyConfig.Bust "PUT".toList
                (GoMap.put [] "/posts".toList ["^GET:/posts".toList, "^HEAD:/posts".toList]) } ∧
      Config.bustPatterns c' "PUT".toList "/posts".toList =
        some ["^GET:/posts".toList, "^HEAD:/posts".toList] :=
  parseAndSetBustArgs_grammar emptyConfig "PUT".toList "/posts".toList
    ["^GET:/posts".toList, "^HEAD:/posts".toList] [] (by decide) (by decide) (by decide)
    (by decide) (by decide) (by decide) (by decide)

/-- An argument that ends in the route separator, and holds it once, has nothing
after it. -/
theorem last_piece_nil (a b : Char) (hab : a ≠ b) (r p : Str) (hp : ¬ [a, b] <:+: p)
    (hsuf : [a, b] <:+ r ++ [a, b] ++ p) : p = [] := by
  by_contra hne
  have h1 : b :: p <:+ r ++ [a, b] ++ p := by
    refine ⟨r ++ [a], by simp⟩
  have hlen : ([a, b] : Str).length ≤ (b :: p).length := by
    have : 0 < p.length := List.length_pos.mpr hne
    simp; omega
  have h2 : [a, b] <:+ b :: p := List.suffix_of_suffix_length_le hsuf h1 hlen
  rcases List.suffix_cons_iff.mp h2 with h | h
  · have : a = b := by
      have := congrArg List.head? h
      simpa using this
    exact hab this
  · exact hp h.isInfix

/-- The shape of the pieces of a well-formed bust flag value. -/
theorem wellFormed_iff_split (args : Str) :
    SpecWellFormed args ↔
      ∃ r p, Split args RouteSepChar = [r, p] ∧ r ≠ [] ∧ p ≠ [] := by
  have hsep : RouteSepChar ≠ [] := by simp [RouteSepChar]
  have hlen : (Split args RouteSepChar).length = SpecOccurrences RouteSepChar args + 1 :=
    Split_length '=' '>' (by decide) args
  have hjoin := Join_Split args RouteSepChar hsep
  have hpieces := Split_pieces args RouteSepChar hsep
  unfold SpecWellFormed
  rcases hsp : Split args RouteSepChar with _ | ⟨r, _ | ⟨p, _ | ⟨q, rest⟩⟩⟩
  · rw [hsp] at hlen; simp at hlen
  · rw [hsp] at hlen
    have h0 : SpecOccurrences RouteSepChar args = 0 := by simpa using hlen.symm
    simp [h0]
  · rw [hsp] at hlen hjoin hpieces
    have h1 : SpecOccurrences RouteSepChar args = 1 := by simpa using hlen.symm
    have hargs : args = r ++ RouteSepChar ++ p := by simpa [Join] using hjoin.symm
    have hr : r = [] ↔ RouteSepChar <+: args := by
      constructor
      · intro h; rw [hargs, h]; simp
      · rintro ⟨rest, hrest⟩
        have := Split_at_occurrence RouteSepChar rest hsep
        rw [hrest, hsp] at this
        exact (List.cons.inj this).1
    have hp : p = [] ↔ RouteSepChar <:+ args := by
      constructor
      · intro h; rw [hargs, h]; simp
      · intro h
        rw [hargs] at h
        exact last_piece_nil '=' '>' (by decide) r p (hpieces p (by simp)) h
    rw [← hr, ← hp]
    constructor
    · rintro ⟨_, h2, h3⟩
      exact ⟨r, p, rfl, h2, h3⟩
    · rintro ⟨r2, p2, h2, h3, h4⟩
      obtain ⟨rfl, hh⟩ := List.cons.inj h2
      obtain ⟨rfl, _⟩ := List.cons.inj hh
      exact ⟨h1, h3, h4⟩
  · rw [hsp] at hlen
    have h2 : SpecOccurrences RouteSepChar args ≠ 1 := by
      simp at hlen; omega
    simp [h2]

theorem parseAndSetBustArgs_wellFormed (c : Config) (method args : Str)
    (hwf : SpecWellFormed args) :
    parseAndSetBustArgs c method args =
      match GoMap.get? c.Bust method with
      | none => Outcome.panicked
      | some _ => Outcome.returned (recordValue method c args) none := by
  obtain ⟨r, p, hsp, hr, hp⟩ := (wellFormed_iff_split args).mp hwf
  rw [parseAndSetBustArgs_eq, hsp]
  simp only [hr, hp, or_self, if_false]
  cases h : GoMap.get? c.Bust method with
  | none => rfl
  | some e => simp [recordValue, bustRoute, bustPatternsOf, hsp, h]

theorem parseAndSetBustArgs_not_wellFormed (c : Config) (method args : Str)
    (hwf : ¬ SpecWellFormed args) :
    parseAndSetBustArgs c method args =
      Outcome.returned c (some (newParseBustArgError method args)) := by
  rw [wellFormed_iff_split] at hwf
  rw [parseAndSetBustArgs_eq]
  rcases hsp : Split args RouteSepChar with _ | ⟨r, _ | ⟨p, _ | ⟨q, rest⟩⟩⟩
  · rfl
  · rfl
  · have : r = [] ∨ p = [] := by
      by_contra hcon
      rw [not_or] at hcon
      exact hwf ⟨r, p, hsp, hcon.1, hcon.2⟩
    simp [this]
  · rfl


/-- C6: `parseAndSetBustArgs` returns an error exactly for the arguments that do
not contain `"=>"`, contain it more than once, begin with it (empty route) or end
with it (empty pattern list); for every other argument it returns without an
error, provided the configuration holds a map for the method in `Bust`. -/
theorem parseAndSetBustArgs_error_iff (c : Config) (method args : Str) :
    ((parseAndSetBustArgs c method args).isError = true ↔
      (SpecOccurrences RouteSepChar args = 0 ∨ 1 < SpecOccurrences RouteSepChar args ∨
        RouteSepChar <+: args ∨ RouteSepChar <:+ args)) ∧
    (∀ endpoints, GoMap.get? c.Bust method = some endpoints →
      (parseAndSetBustArgs c method args).isError = false →
      ∃ c', parseAndSetBustArgs c method args = Outcome.returned c' none) := by
  have hiff : ¬ SpecWellFormed args ↔
      (SpecOccurrences RouteSepChar args = 0 ∨ 1 < SpecOccurrences RouteSepChar args ∨
        RouteSepChar <+: args ∨ RouteSepChar <:+ args) := by
    unfold SpecWellFormed
    by_cases hP : RouteSepChar <+: args
    · simp [hP]
    · by_cases hS : RouteSepChar <:+ args
      · simp [hS]
      · simp only [hP, hS, not_false_eq_true, and_true, or_false]
        omega
  by_cases hwf : SpecWellFormed args
  · have hno : ¬ (SpecOccurrences RouteSepChar args = 0 ∨
        1 < SpecOccurrences RouteSepChar args ∨
        RouteSepChar <+: args ∨ RouteSepChar <:+ args) := fun h => hiff.mpr h hwf
    rw [parseAndSetBustArgs_wellFormed c method args hwf]
    constructor
    · constructor
      · intro h
        cases hg : GoMap.get? c.Bust method <;> rw [hg] at h <;> simp [Outcome.isError] at h
      · intro h
        exact absurd h hno
    · intro endpoints halloc _
      rw [halloc]
      exact ⟨_, rfl⟩
  · rw [parseAndSetBustArgs_not_wellFormed c method args hwf]
    constructor
    · simp [Outcome.isError, hiff.mp hwf]
    · intro _ _ h
      simp [Outcome.isError] at h

/-- C7: whenever `parseAndSetBustArgs` returns without an error, the route `r` and
the patterns `ps` it has stored under `Bust[method][r]` spell the argument:
`r ++ "=>" ++ (ps joined with "||")` is the argument. -/
theorem parseAndSetBustArgs_verbatim (c c' : Config) (method args : Str)
    (h : parseAndSetBustArgs c method args = Outcome.returned c' none) :
    ∃ r ps endpoints, GoMap.get? c.Bust method = some endpoints ∧
      c' = { c with Bust := GoMap.put c.Bust method (GoMap.put endpoints r ps) } ∧
      Config.bustPatterns c' method r = some ps ∧
      r ++ RouteSepChar ++ Join ps PatternSepChar = args := by
  have hsep : RouteSepChar ≠ [] := by simp [RouteSepChar]
  have hpsep : PatternSepChar ≠ [] := by simp [PatternSepChar]
  have hjoin := Join_Split args RouteSepChar hsep
  rw [parseAndSetBustArgs_eq] at h
  rcases hsp : Split args RouteSepChar with _ | ⟨r, _ | ⟨p, _ | ⟨q, rest⟩⟩⟩
  · rw [hsp] at h; simp at h
  · rw [hsp] at h; simp at h
  · rw [hsp] at h hjoin
    by_cases hrp : r = [] ∨ p = []
    · simp [hrp] at h
    · simp only [hrp, if_false] at h
      cases halloc : GoMap.get? c.Bust method with
      | none => rw [halloc] at h; simp at h
      | some endpoints =>
        rw [halloc] at h
        simp only [Outcome.returned.injEq, and_true] at h
        refine ⟨r, Split p PatternSepChar, endpoints, rfl, h.symm, ?_, ?_⟩
        · rw [← h]; exact Config.bustPatterns_put c method r endpoints _
        · rw [Join_Split p PatternSepChar hpsep]
          simpa [Join] using hjoin
  · rw [hsp] at h; simp at h

theorem parseAndSetBustArgs_verbatim_witness :
    ∃ r ps endpoints, GoMap.get? emptyConfig.Bust "POST".toList = some endpoints ∧
      { emptyConfig with
          Bust := GoMap.put emptyConfig.Bust "POST".toList
            (GoMap.put [] " /a ".toList [" ^x ".toList, "".toList]) } =
        { emptyConfig with
          Bust := GoMap.put emptyConfig.Bust "POST".toList (GoMap.put endpoints r ps) } ∧
      Config.bustPatterns
          { emptyConfig with
            Bust := GoMap.put emptyConfig.Bust "POST".toList
              (GoMap.put [] " /a ".toList [" ^x ".toList, "".toList]) }
          "POST".toList r = some ps ∧
      r ++ RouteSepChar ++ Join ps PatternSepChar = " /a => ^x ||".toList :=
  parseAndSetBustArgs_verbatim emptyConfig _ "POST".toList " /a => ^x ||".toList (by decide)

/-! ## The set of keys to bust -/

theorem GoMap.mem_keys_put {K V : Type} [DecidableEq K] (m : GoMap K V) (k : K) (v : V)
    (x : K) : x ∈ (GoMap.put m k v).map Prod.fst ↔ x = k ∨ x ∈ m.map Prod.fst := by
  induction m with
  | nil => simp [GoMap.put]
  | cons e rest ih =>
    obtain ⟨k', v'⟩ := e
    by_cases hk : k' = k
    · subst hk
      simp [GoMap.put]
    · simp only [GoMap.put, hk, if_false, List.map_cons, List.mem_cons, ih]
      tauto

theorem GoMap.nodup_keys_put {K V : Type} [DecidableEq K] (m : GoMap K V) (k : K) (v : V)
    (h : (m.map Prod.fst).Nodup) : ((GoMap.put m k v).map Prod.fst).Nodup := by
  induction m with
  | nil => simp [GoMap.put]
  | cons e rest ih =>
    obtain ⟨k', v'⟩ := e
    rw [List.map_cons, List.nodup_cons] at h
    by_cases hk : k' = k
    · subst hk
      simpa [GoMap.put] using h
    · simp only [GoMap.put, hk, if_false, List.map_cons, List.nodup_cons]
      refine ⟨?_, ih h.2⟩
      rw [GoMap.mem_keys_put]
      rintro (h1 | h1)
      · exact hk h1
      · exact h.1 h1

theorem Set.Elements_eq {T : Type} (visit : List (T × Unit)) :
    Set.Elements visit = visit.map Prod.fst := by
  have : ∀ (acc : List T), visit.foldl (fun elements k => elements ++ [k.1]) acc =
      acc ++ visit.map Prod.fst := by
    induction visit with
    | nil => simp
    | cons e rest ih => intro acc; simp [ih]
  simpa [Set.Elements] using this []

theorem Set.keys_of_adds {T : Type} [DecidableEq T] (adds : List T) (set : Set T)
    (hset : (set.map Prod.fst).Nodup) :
    ((adds.foldl Set.Add set).map Prod.fst).Nodup ∧
      ∀ x, x ∈ (adds.foldl Set.Add set).map Prod.fst ↔ x ∈ adds ∨ x ∈ set.map Prod.fst := by
  induction adds generalizing set with
  | nil => simpa using hset
  | cons a rest ih =>
    have h1 := ih (Set.Add set a) (GoMap.nodup_keys_put set a nothing hset)
    refine ⟨h1.1, ?_⟩
    intro x
    rw [List.foldl_cons, h1.2 x]
    simp only [Set.Add, GoMap.mem_keys_put, List.mem_cons]
    tauto

/-- C8: after any sequence of `Add` calls on an empty `Set`, `Elements` returns, for
every order in which `range` may visit the map, a list without repetition whose
members are exactly the elements added (every added element occurs in it once and
nothing else occurs), so that its length is the number of distinct elements
added. -/
theorem Set.Elements_distinct {T : Type} [DecidableEq T] (adds : List T)
    (visit : List (T × Unit)) (hv : RangeOrder (adds.foldl Set.Add []) visit) :
    (Set.Elements visit).Nodup ∧
      (∀ x, x ∈ Set.Elements visit ↔ x ∈ adds) ∧
      (Set.Elements visit).length = adds.dedup.length := by
  have hkeys := Set.keys_of_adds adds ([] : Set T) (by simp)
  have hperm : (Set.Elements visit).Perm ((adds.foldl Set.Add []).map Prod.fst) := by
    rw [Set.Elements_eq]
    exact List.Perm.map _ hv
  have hnd : (Set.Elements visit).Nodup := hperm.nodup_iff.mpr hkeys.1
  have hmem : ∀ x, x ∈ Set.Elements visit ↔ x ∈ adds := by
    intro x
    rw [hperm.mem_iff, hkeys.2 x]
    simp
  refine ⟨hnd, hmem, ?_⟩
  · have hp : (Set.Elements visit).Perm adds.dedup := by
      rw [List.perm_ext_iff_of_nodup hnd (List.nodup_dedup adds)]
      intro x
      rw [hmem x, List.mem_dedup]
    exact hp.length_eq

theorem Set.Elements_distinct_witness :
    (Set.Elements [("GET:/2".toList, ()), ("GET:/1".toList, ())]).Nodup ∧
      (∀ x, x ∈ Set.Elements [("GET:/2".toList, ()), ("GET:/1".toList, ())] ↔
        x ∈ ["GET:/1".toList, "GET:/2".toList, "GET:/1".toList]) ∧
      (Set.Elements [("GET:/2".toList, ()), ("GET:/1".toList, ())]).length =
        ["GET:/1".toList, "GET:/2".toList, "GET:/1".toList].dedup.length :=
  Set.Elements_distinct ["GET:/1".toList, "GET:/2".toList, "GET:/1".toList]
    [("GET:/2".toList, ()), ("GET:/1".toList, ())] (by unfold RangeOrder; decide)

/-! ## Flags and the configuration -/

/-- The parts of `addToConfig`: the scalar flags, the cache blocks, the bust blocks,
the last steps. -/
theorem addToConfig_eq (new : Config) (a : cliArgs) (c : Option Config) :
    addToConfig new a c =
      (runStages a.bustFlags (cacheStages a (applyScalars new a c))).andThen finish := by
  rfl

/-- A cache block that returns has returned `nil` and changed nothing but `Cache`. -/
theorem cacheStage_returned (method : Str) (values : List Str) (c c' : Config)
    (err : Option Error) (h : cacheStage method values c = Outcome.returned c' err) :
    err = none ∧ c'.ApiUrl = c.ApiUrl ∧ c'.Bust = c.Bust := by
  unfold cacheStage at h
  split at h
  · cases hc : c.Cache with
    | none => rw [hc] at h; simp at h
    | some cache =>
      rw [hc] at h
      simp only [Outcome.returned.injEq] at h
      obtain ⟨h1, h2⟩ := h
      subst h1
      exact ⟨h2.symm, rfl, rfl⟩
  · simp only [Outcome.returned.injEq] at h
    obtain ⟨h1, h2⟩ := h
    subst h1
    exact ⟨h2.symm, rfl, rfl⟩

theorem cacheStages_returned (a : cliArgs) (c c' : Config) (err : Option Error)
    (h : cacheStages a c = Outcome.returned c' err) :
    err = none ∧ c'.ApiUrl = c.ApiUrl ∧ c'.Bust = c.Bust := by
  unfold cacheStages at h
  cases h1 : cacheStage "GET".toList a.cacheGET c with
  | panicked => rw [h1] at h; simp [Outcome.andThen] at h
  | returned c1 e1 =>
    obtain ⟨he, hu, hb⟩ := cacheStage_returned _ _ _ _ _ h1
    subst he
    rw [h1] at h
    simp only [Outcome.andThen] at h
    obtain ⟨he2, hu2, hb2⟩ := cacheStage_returned _ _ _ _ _ h
    exact ⟨he2, hu2.trans hu, hb2.trans hb⟩

/-- A cache block returns when no value is given or `Cache` is not a nil map. -/
theorem cacheStage_returns (method : Str) (values : List Str) (c : Config)
    (h : values ≠ [] → c.Cache.isSome = true) :
    ∃ c', cacheStage method values c = Outcome.returned c' none ∧ c'.Bust = c.Bust ∧
      (c.Cache.isSome = true → c'.Cache.isSome = true) := by
  cases values with
  | nil => exact ⟨c, rfl, rfl, fun hh => hh⟩
  | cons v rest =>
    obtain ⟨cache, hc⟩ := Option.isSome_iff_exists.mp (h (List.cons_ne_nil _ _))
    refine ⟨{ c with Cache := some (GoMap.put cache method (v :: rest)) }, ?_, rfl, fun _ => rfl⟩
    simp [cacheStage, hc]

theorem cacheStages_returns (a : cliArgs) (c : Config)
    (h : a.cacheGET ≠ [] ∨ a.cacheHEAD ≠ [] → c.Cache.isSome = true) :
    ∃ c', cacheStages a c = Outcome.returned c' none ∧ c'.Bust = c.Bust := by
  obtain ⟨c1, h1, hb1, hc1⟩ :=
    cacheStage_returns "GET".toList a.cacheGET c (fun hh => h (Or.inl hh))
  obtain ⟨c2, h2, hb2, _⟩ :=
    cacheStage_returns "HEAD".toList a.cacheHEAD c1 (fun hh => hc1 (h (Or.inr hh)))
  refine ⟨c2, ?_, hb2.trans hb1⟩
  simp only [cacheStages, h1, Outcome.andThen, h2]

theorem GoMap.isSome_get?_put {K V : Type} [DecidableEq K] (m : GoMap K V) (k k2 : K) (v : V)
    (h : (GoMap.get? m k2).isSome = true) : (GoMap.get? (GoMap.put m k v) k2).isSome = true := by
  by_cases hk : k2 = k
  · subst hk; rw [GoMap.get?_put_self]; rfl
  · rw [GoMap.get?_put_of_ne _ _ _ _ hk]; exact h

theorem recordValue_sameScalars (method : Str) (c : Config) (args : Str) :
    SameScalars c (recordValue method c args) :=
  ⟨rfl, rfl, rfl, rfl, rfl, rfl, rfl⟩

theorem recordValue_isSome (method : Str) (c : Config) (args : Str) (k : Str)
    (h : (GoMap.get? c.Bust k).isSome = true) :
    (GoMap.get? (recordValue method c args).Bust k).isSome = true :=
  GoMap.isSome_get?_put _ _ _ _ h

theorem SameScalars.trans {c1 c2 c3 : Config} (h1 : SameScalars c1 c2) (h2 : SameScalars c2 c3) :
    SameScalars c1 c3 := by
  obtain ⟨a1, a2, a3, a4, a5, a6, a7⟩ := h1
  obtain ⟨b1, b2, b3, b4, b5, b6, b7⟩ := h2
  exact ⟨b1.trans a1, b2.trans a2, b3.trans a3, b4.trans a4, b5.trans a5, b6.trans a6,
    b7.trans a7⟩

theorem SameScalars.refl (c : Config) : SameScalars c c :=
  ⟨rfl, rfl, rfl, rfl, rfl, rfl, rfl⟩

/-- A bust loop over well-formed values records them all. -/
theorem bustLoop_wellFormed (method : Str) (values : List Str) (c : Config)
    (h : (GoMap.get? c.Bust method).isSome = true)
    (hwf : ∀ args ∈ values, SpecWellFormed args) :
    bustLoop method values c = Outcome.returned (values.foldl (recordValue method) c) none := by
  induction values generalizing c with
  | nil => rfl
  | cons args rest ih =>
    obtain ⟨e, he⟩ := Option.isSome_iff_exists.mp h
    have h1 := ih (recordValue method c args) (recordValue_isSome method c args method h)
      (fun x hx => hwf x (List.mem_cons_of_mem _ hx))
    simp only [bustLoop, parseAndSetBustArgs_wellFormed c method args
      (hwf args (List.mem_cons_self _ _)), he, Outcome.andThen, h1, List.foldl_cons]

theorem bustStage_eq (method : Str) (values : List Str) (c : Config) :
    bustStage method values c = bustLoop method values c := by
  cases values with
  | nil => rfl
  | cons a rest => simp [bustStage]


theorem foldl_recordValue_isSome (method : Str) (values : List Str) (c : Config) (k : Str)
    (h : (GoMap.get? c.Bust k).isSome = true) :
    (GoMap.get? (values.foldl (recordValue method) c).Bust k).isSome = true := by
  induction values generalizing c with
  | nil => exact h
  | cons args rest ih => exact ih _ (recordValue_isSome method c args k h)

/-- The bust blocks over well-formed values record them all. -/
theorem runStages_wellFormed (stages : List (Str × List Str)) (c1 : Config)
    (hal : ∀ mv ∈ stages, (GoMap.get? c1.Bust mv.1).isSome = true)
    (hwf : ∀ mv ∈ stages, ∀ args ∈ mv.2, SpecWellFormed args) :
    runStages stages (Outcome.returned c1 none) =
      Outcome.returned (recordStages stages c1) none := by
  induction stages generalizing c1 with
  | nil => rfl
  | cons mv rest ih =>
    have h1 := bustLoop_wellFormed mv.1 mv.2 c1 (hal mv (List.mem_cons_self _ _))
      (hwf mv (List.mem_cons_self _ _))
    have h2 := ih (mv.2.foldl (recordValue mv.1) c1)
      (fun x hx => foldl_recordValue_isSome _ _ _ _ (hal x (List.mem_cons_of_mem _ hx)))
      (fun x hx => hwf x (List.mem_cons_of_mem _ hx))
    show runStages rest ((Outcome.returned c1 none).andThen (bustStage mv.1 mv.2)) = _
    simp only [Outcome.andThen, bustStage_eq, h1]
    exact h2

theorem bustPatterns_recordValue (method : Str) (c : Config) (args m r : Str) :
    Config.bustPatterns (recordValue method c args) m r =
      if m = method then
        (if bustRoute args = r then some (bustPatternsOf args)
          else Config.bustPatterns c method r)
      else Config.bustPatterns c m r := by
  by_cases hm : m = method
  · subst hm
    simp only [Config.bustPatterns, recordValue, GoMap.get?_put_self, Option.some_bind, if_true]
    by_cases hr : bustRoute args = r
    · subst hr
      simp [GoMap.get?_put_self]
    · have hr2 : r ≠ bustRoute args := fun h => hr h.symm
      rw [GoMap.get?_put_of_ne _ _ _ _ hr2, if_neg hr]
      cases GoMap.get? c.Bust m <;> simp [GoMap.get?]
  · simp only [Config.bustPatterns, recordValue, GoMap.get?_put_of_ne _ _ _ _ hm, if_neg hm]

theorem bustPatterns_foldl_recordValue (method : Str) (values : List Str) (c : Config)
    (m r : Str) :
    Config.bustPatterns (values.foldl (recordValue method) c) m r =
      if m = method then SpecStored values r (Config.bustPatterns c method r)
      else Config.bustPatterns c m r := by
  induction values generalizing c with
  | nil => by_cases hm : m = method <;> simp [SpecStored, hm]
  | cons args rest ih =>
    rw [List.foldl_cons, ih]
    by_cases hm : m = method
    · simp only [hm, if_true, SpecStored, List.foldl_cons, bustPatterns_recordValue]
    · simp only [hm, if_false, bustPatterns_recordValue]

theorem bustPatterns_recordStages_other (stages : List (Str × List Str)) (c : Config)
    (m r : Str) (hm : m ∉ stages.map Prod.fst) :
    Config.bustPatterns (recordStages stages c) m r = Config.bustPatterns c m r := by
  induction stages generalizing c with
  | nil => rfl
  | cons mv rest ih =>
    rw [List.map_cons, List.mem_cons, not_or] at hm
    have := ih (mv.2.foldl (recordValue mv.1) c) hm.2
    rw [bustPatterns_foldl_recordValue, if_neg hm.1] at this
    exact this

theorem bustPatterns_recordStages (stages : List (Str × List Str)) (c : Config)
    (hnd : (stages.map Prod.fst).Nodup) (mv : Str × List Str) (hmv : mv ∈ stages) (r : Str) :
    Config.bustPatterns (recordStages stages c) mv.1 r =
      SpecStored mv.2 r (Config.bustPatterns c mv.1 r) := by
  induction stages generalizing c with
  | nil => simp at hmv
  | cons x rest ih =>
    rw [List.map_cons, List.nodup_cons] at hnd
    rcases List.mem_cons.mp hmv with rfl | hmem
    · have := bustPatterns_recordStages_other rest (mv.2.foldl (recordValue mv.1) c) mv.1 r hnd.1
      rw [bustPatterns_foldl_recordValue, if_pos rfl] at this
      exact this
    · have hne : mv.1 ≠ x.1 := by
        intro h
        exact hnd.1 (h ▸ List.mem_map_of_mem Prod.fst hmem)
      have := ih (x.2.foldl (recordValue x.1) c) hnd.2 hmem
      rw [bustPatterns_foldl_recordValue, if_neg hne] at this
      exact this

theorem GoMap.get?_filter_keys {V : Type} (m : GoMap Str V) (keys : List Str) (k : Str)
    (hk : k ∈ keys) :
    GoMap.get? (m.filter (fun e => decide (e.1 ∈ keys))) k = GoMap.get? m k := by
  induction m with
  | nil => rfl
  | cons e rest ih =>
    obtain ⟨k', v⟩ := e
    by_cases hmem : k' ∈ keys
    · simp only [List.filter_cons, hmem, decide_True, if_true, GoMap.get?, ih]
    · have hne : ¬ k' = k := fun h => hmem (h ▸ hk)
      simp only [List.filter_cons, hmem, decide_False, GoMap.get?, hne, if_false]
      exact ih

theorem applyScalars_fields (new : Config) (a : cliArgs) (c : Option Config) :
    (applyScalars new a c).Capacity =
        (if a.capacity ≠ 0 then a.capacity else (c.getD new).Capacity) ∧
      (applyScalars new a c).CapacityUnit =
        (if a.capacityUnit ≠ [] then a.capacityUnit else (c.getD new).CapacityUnit) ∧
      (applyScalars new a c).Hostname =
        (if a.hostname ≠ [] then a.hostname else (c.getD new).Hostname) ∧
      (applyScalars new a c).Port = (if a.port ≠ 0 then a.port else (c.getD new).Port) ∧
      (applyScalars new a c).ApiUrl =
        (if a.apiUrl ≠ [] then a.apiUrl else (c.getD new).ApiUrl) ∧
      (applyScalars new a c).LogFilePath =
        (if a.logFilePath ≠ [] then a.logFilePath else (c.getD new).LogFilePath) ∧
      (applyScalars new a c).Bust = (c.getD new).Bust ∧
      (applyScalars new a c).Cache = (c.getD new).Cache := by
  unfold applyScalars
  lift_lets
  intro c0 c1 c2 c3 c4 c5
  refine ⟨?_, ?_, ?_, ?_, ?_, ?_, ?_, ?_⟩
  · simp only [apply_ite Config.Capacity, ite_self, c5, c4, c3, c2, c1, c0]
  · simp only [apply_ite Config.CapacityUnit, ite_self, c5, c4, c3, c2, c1, c0]
  · simp only [apply_ite Config.Hostname, ite_self, c5, c4, c3, c2, c1, c0]
  · simp only [apply_ite Config.Port, ite_self, c5, c4, c3, c2, c1, c0]
  · simp only [apply_ite Config.ApiUrl, ite_self, c5, c4, c3, c2, c1, c0]
  · simp only [apply_ite Config.LogFilePath, ite_self, c5, c4, c3, c2, c1, c0]
  · simp only [apply_ite Config.Bust, ite_self, c5, c4, c3, c2, c1, c0]
  · simp only [apply_ite Config.Cache, ite_self, c5, c4, c3, c2, c1, c0]

theorem finish_returns (c : Config) :
    ∃ err, finish c = Outcome.returned c.TrimTrailingSlash.RemoveInvalidHTTPMethods err ∧
      ∀ method args, err ≠ some (newParseBustArgError method args) := by
  unfold finish
  cases h : c.TrimTrailingSlash.RemoveInvalidHTTPMethods.Validate with
  | none => exact ⟨none, rfl, fun _ _ hh => by simp at hh⟩
  | some e =>
    refine ⟨some e, rfl, ?_⟩
    intro method args hh
    unfold Config.Validate at h
    split_ifs at h <;> simp [newParseBustArgError] at h hh <;> rw [← h] at hh <;> simp at hh


theorem mem_bustMethods_of_mem_bustFlags (a : cliArgs) (mv : Str × List Str)
    (h : mv ∈ a.bustFlags) : mv.1 ∈ bustMethods :=
  List.mem_map_of_mem Prod.fst h

/-- C9: the flags `--port 0` and `--hostname ""` are given on top of a configuration
file that sets port 8080 and hostname `localhost`. `addToConfig` returns `nil`, and
the configuration it leaves still holds the port and the hostname of the file,
not the values of the flags: the guards `if a.port != 0` and `if a.hostname != ""`
take a flag given with the zero value for a flag that was not given, where the
documentation of `CreateConfFromCli` has "any cli flags will overwrite the file's
configuration". -/
theorem addToConfig_zero_flag_kept :
    ∃ c', addToConfig emptyConfig
          (Flags.toArgs { noFlags with port := some 0, hostname := some [] })
          (some fileConfig) = Outcome.returned c' none ∧
      c'.Port = 8080 ∧ c'.Port ≠ 0 ∧
      c'.Hostname = "localhost".toList ∧ c'.Hostname ≠ [] :=
  ⟨_, rfl, by decide, by decide, by decide, by decide⟩

/-- C10 (as stated) fails: the value `"/posts=>/posts"` of `--bust:PUT` is well-formed,
and with a rejected value for `--bust:GET` next to it `addToConfig` returns the
error of the `GET` flag and has recorded nothing under `Bust["PUT"]["/posts"]`. On a
configuration whose `Bust` has no map for `PUT` the call panics, and so it does on
a configuration whose `Cache` is a nil map when a cache flag is given. -/
theorem addToConfig_records_bust_counterexample :
    SpecWellFormed "/posts=>/posts".toList ∧
    (∃ c', addToConfig emptyConfig
          (Flags.toArgs
            { noFlags with bustGET := ["/todos".toList], bustPUT := ["/posts=>/posts".toList] })
          none =
        Outcome.returned c' (some (newParseBustArgError "GET".toList "/todos".toList)) ∧
      Config.bustPatterns c' "PUT".toList "/posts".toList = none) ∧
    addToConfig emptyConfig
        (Flags.toArgs { noFlags with bustPUT := ["/posts=>/posts".toList] })
        (some { emptyConfig with Bust := [] }) = Outcome.panicked ∧
    addToConfig emptyConfig
        (Flags.toArgs
          { noFlags with cacheGET := ["/posts".toList], bustPUT := ["/posts=>/posts".toList] })
        (some { emptyConfig with Cache := none }) = Outcome.panicked := by
  refine ⟨?_, ⟨_, rfl, by decide⟩, by decide, by decide⟩
  unfold SpecWellFormed
  decide

/-- C10 (amended): on a configuration that holds a map in `Bust` for each of the
nine methods, and whose `Cache` is not a nil map when a cache flag is given, and
with well-formed values for the bust flags of every method, `addToConfig` returns
without rejecting a flag, and for every method and every route the patterns then
found in `Bust[method][route]` are those of the last value of that method's flag
that names the route, and the patterns found there before when no value names
it: values naming different routes are all retained, routes already present are
kept, and of two values naming the same route the later one is stored. The two
`--bust:PUT` flags of `generateArgs`, for `/posts` and `/posts/:id`, both end up in
`Bust["PUT"]`. -/
theorem addToConfig_records_bust (new : Config) (a : cliArgs) (c : Option Config)
    (hall : Allocated (c.getD new))
    (hcache : a.cacheGET ≠ [] ∨ a.cacheHEAD ≠ [] → (c.getD new).Cache.isSome = true)
    (hwf : ∀ mv ∈ a.bustFlags, ∀ args ∈ mv.2, SpecWellFormed args) :
    (∃ c' err, addToConfig new a c = Outcome.returned c' err ∧
      (∀ method args, err ≠ some (newParseBustArgError method args)) ∧
      ∀ mv ∈ a.bustFlags, ∀ route,
        Config.bustPatterns c' mv.1 route =
          SpecStored mv.2 route (Config.bustPatterns (c.getD new) mv.1 route)) ∧
    ∃ c', addToConfig emptyConfig testFlags.toArgs none = Outcome.returned c' none ∧
      Config.bustPatterns c' "PUT".toList "/posts".toList =
        some ["^GET:/posts".toList, "^HEAD:/posts".toList] ∧
      Config.bustPatterns c' "PUT".toList "/posts/:id".toList = some ["/posts/:id".toList] := by
  refine ⟨?_, _, rfl, by decide, by decide⟩
  obtain ⟨_, _, _, _, _, _, f7, f8⟩ := applyScalars_fields new a c
  obtain ⟨c0, hcs, hb0⟩ := cacheStages_returns a (applyScalars new a c) (by rw [f8]; exact hcache)
  have hal : ∀ mv ∈ a.bustFlags, (GoMap.get? c0.Bust mv.1).isSome = true := by
    intro mv hmv
    rw [hb0, f7]
    exact hall mv.1 (mem_bustMethods_of_mem_bustFlags _ mv hmv)
  have hrun := runStages_wellFormed a.bustFlags c0 hal hwf
  obtain ⟨err, hfin, herr⟩ := finish_returns (recordStages a.bustFlags c0)
  refine ⟨(recordStages a.bustFlags c0).TrimTrailingSlash.RemoveInvalidHTTPMethods, err, ?_,
    herr, ?_⟩
  · rw [addToConfig_eq, hcs, hrun]
    exact hfin
  · intro mv hmv route
    have hnd : (a.bustFlags.map Prod.fst).Nodup := by
      show bustMethods.Nodup
      decide
    have h1 := bustPatterns_recordStages a.bustFlags c0 hnd mv hmv route
    have h2 : Config.bustPatterns c0 mv.1 route =
        Config.bustPatterns (c.getD new) mv.1 route := by
      simp only [Config.bustPatterns, hb0, f7]
    rw [← h2, ← h1]
    simp only [Config.bustPatterns, Config.RemoveInvalidHTTPMethods, Config.TrimTrailingSlash]
    rw [GoMap.get?_filter_keys _ _ _ (mem_bustMethods_of_mem_bustFlags _ mv hmv)]

theorem allocated_emptyConfig : Allocated emptyConfig := by
  unfold Allocated
  decide

/-- The flag parser leaves the two routes of `--cache:HEAD /posts,/posts/:id` in
`cacheHEAD`, as `TestFlagParsing` expects. -/
theorem testFlags_cacheHEAD :
    testFlags.toArgs.cacheHEAD = ["/posts".toList, "/posts/:id".toList] := by
  decide

theorem wellFormed_testFlags :
    ∀ mv ∈ testFlags.toArgs.bustFlags, ∀ args ∈ mv.2, SpecWellFormed args := by
  unfold SpecWellFormed
  decide

theorem addToConfig_records_bust_witness :
    (∃ c' err, addToConfig emptyConfig testFlags.toArgs none = Outcome.returned c' err ∧
      (∀ method args, err ≠ some (newParseBustArgError method args)) ∧
      ∀ mv ∈ testFlags.toArgs.bustFlags, ∀ route,
        Config.bustPatterns c' mv.1 route =
          SpecStored mv.2 route (Config.bustPatterns emptyConfig mv.1 route)) ∧
    ∃ c', addToConfig emptyConfig testFlags.toArgs none = Outcome.returned c' none ∧
      Config.bustPatterns c' "PUT".toList "/posts".toList =
        some ["^GET:/posts".toList, "^HEAD:/posts".toList] ∧
      Config.bustPatterns c' "PUT".toList "/posts/:id".toList = some ["/posts/:id".toList] :=
  addToConfig_records_bust emptyConfig testFlags.toArgs none allocated_emptyConfig
    (fun _ => rfl) wellFormed_testFlags

/-! ## Patterns that hold no parameter -/

/-- A pattern in which no token of the visited bindings occurs is a fixed point of
every step of the hydration, and stays at its position. -/
theorem hydrateList_untouched (visit : List (Str × Str)) (ps : List Str) :
    List.Forall₂ (fun p q => (∀ pv ∈ visit, ¬ (':' :: pv.1) <:+: p) → q = p)
      ps (hydrateList visit ps) := by
  induction visit generalizing ps with
  | nil => exact List.forall₂_same.mpr (fun _ _ _ => rfl)
  | cons pv rest ih =>
    have h1 := ih (ps.map (fun p => ReplaceAll p (':' :: pv.1) pv.2))
    rw [List.forall₂_map_left_iff] at h1
    show List.Forall₂ _ ps
      (hydrateList rest (ps.map (fun p => ReplaceAll p (':' :: pv.1) pv.2)))
    refine List.Forall₂.imp ?_ h1
    intro p q hq hp
    have hfix : ReplaceAll p (':' :: pv.1) pv.2 = p :=
      ReplaceAll_of_absent _ _ p (by simp) (hp pv (List.mem_cons_self _ _))
    rw [hfix] at hq
    exact hq (fun x hx => hp x (List.mem_cons_of_mem _ hx))

theorem not_infix_of_no_colon (name p : Str) (hp : ':' ∉ p) : ¬ (':' :: name) <:+: p := by
  intro h
  exact hp (h.subset (List.mem_cons_self _ _))

/-- C16: for every parameter map and every order in which its bindings are visited,
a pattern in which `":" + name` occurs for no bound name is returned by
`hydrateParams` unchanged, at the position it had; so is, for every parameter
map, a pattern that contains no `':'`; and with an empty parameter map the list
returned equals the input list. -/
theorem hydrateParams_untouched (h : Heap) (paramMap : GoMap Str Str)
    (visit : List (Str × Str)) (templates : Slice) (hv : RangeOrder paramMap visit) :
    List.Forall₂
        (fun p q => ((∀ pv ∈ paramMap, ¬ (':' :: pv.1) <:+: p) → q = p) ∧ (':' ∉ p → q = p))
        (h.read templates) (hydrated h visit templates) ∧
      hydrated h [] templates = h.read templates := by
  refine ⟨?_, ?_⟩
  · rw [hydrated_eq]
    refine List.Forall₂.imp ?_ (hydrateList_untouched visit (h.read templates))
    intro p q hq
    refine ⟨fun hp => hq (fun pv hpv => hp pv (hv.mem_iff.mp hpv)), fun hp => hq ?_⟩
    intro pv _
    exact not_infix_of_no_colon pv.1 p hp
  · rw [hydrated_eq]
    rfl

theorem hydrateParams_untouched_witness :
    List.Forall₂
        (fun p q =>
          ((∀ pv ∈ [("id".toList, "7".toList), ("slug".toList, "x".toList)],
            ¬ (':' :: pv.1) <:+: p) → q = p) ∧ (':' ∉ p → q = p))
        (Heap.read [["^GET:/posts".toList, "/posts/:id".toList, "/about".toList]] 0)
        (hydrated [["^GET:/posts".toList, "/posts/:id".toList, "/about".toList]]
          [("slug".toList, "x".toList), ("id".toList, "7".toList)] 0) ∧
      hydrated [["^GET:/posts".toList, "/posts/:id".toList, "/about".toList]] [] 0 =
        Heap.read [["^GET:/posts".toList, "/posts/:id".toList, "/about".toList]] 0 :=
  hydrateParams_untouched [["^GET:/posts".toList, "/posts/:id".toList, "/about".toList]]
    [("id".toList, "7".toList), ("slug".toList, "x".toList)]
    [("slug".toList, "x".toList), ("id".toList, "7".toList)] 0 (List.Perm.swap _ _ _)

/-! ## Atomicity of `parseAndSetBustArgs` -/

/-- C15: when `parseAndSetBustArgs` returns an error the configuration is the one
before the call, every entry of `Bust` included; when it returns without an
error, the scalar fields and `Cache` are those before the call, `Bust[method]`
holds the parsed patterns under the parsed route, the map of every other method
is the one before the call, and `Bust[m][r]` is as before the call for every
method `m` and route `r` other than the given method with the parsed route. -/
theorem parseAndSetBustArgs_atomic (c c' : Config) (method args : Str) (err : Option Error)
    (h : parseAndSetBustArgs c method args = Outcome.returned c' err) :
    (err ≠ none → c' = c) ∧
      (err = none →
        SameScalars c c' ∧
          Config.bustPatterns c' method (bustRoute args) = some (bustPatternsOf args) ∧
          (∀ m, m ≠ method → GoMap.get? c'.Bust m = GoMap.get? c.Bust m) ∧
          ∀ m r, ¬ (m = method ∧ r = bustRoute args) →
            Config.bustPatterns c' m r = Config.bustPatterns c m r) := by
  by_cases hwf : SpecWellFormed args
  · rw [parseAndSetBustArgs_wellFormed c method args hwf] at h
    cases hg : GoMap.get? c.Bust method with
    | none => rw [hg] at h; simp at h
    | some endpoints =>
      rw [hg] at h
      simp only [Outcome.returned.injEq] at h
      obtain ⟨h1, h2⟩ := h
      subst h1
      subst h2
      refine ⟨fun hh => absurd rfl hh,
        fun _ => ⟨recordValue_sameScalars method c args, ?_, ?_, ?_⟩⟩
      · rw [bustPatterns_recordValue]; simp
      · intro m hm
        exact GoMap.get?_put_of_ne _ _ _ _ hm
      · intro m r hmr
        rw [bustPatterns_recordValue]
        by_cases hm : m = method
        · subst hm
          have hr : ¬ bustRoute args = r := fun hh => hmr ⟨rfl, hh.symm⟩
          simp [hr]
        · simp [hm]
  · rw [parseAndSetBustArgs_not_wellFormed c method args hwf] at h
    simp only [Outcome.returned.injEq] at h
    obtain ⟨h1, h2⟩ := h
    subst h1
    subst h2
    exact ⟨fun _ => rfl, fun hh => by simp at hh⟩


theorem parseAndSetBustArgs_atomic_witness :
    ((some (newParseBustArgError "PUT".toList "/posts=>".toList) ≠ none →
        fileConfig = fileConfig) ∧
      (some (newParseBustArgError "PUT".toList "/posts=>".toList) = none →
        SameScalars fileConfig fileConfig ∧
          Config.bustPatterns fileConfig "PUT".toList (bustRoute "/posts=>".toList) =
            some (bustPatternsOf "/posts=>".toList) ∧
          (∀ m, m ≠ "PUT".toList → GoMap.get? fileConfig.Bust m = GoMap.get? fileConfig.Bust m) ∧
          ∀ m r, ¬ (m = "PUT".toList ∧ r = bustRoute "/posts=>".toList) →
            Config.bustPatterns fileConfig m r = Config.bustPatterns fileConfig m r)) ∧
    (((none : Option Error) ≠ none → recordValue "PUT".toList fileConfig "/posts=>^GET:/posts".toList =
        fileConfig) ∧
      ((none : Option Error) = none →
        SameScalars fileConfig (recordValue "PUT".toList fileConfig "/posts=>^GET:/posts".toList) ∧
          Config.bustPatterns (recordValue "PUT".toList fileConfig "/posts=>^GET:/posts".toList)
              "PUT".toList (bustRoute "/posts=>^GET:/posts".toList) =
            some (bustPatternsOf "/posts=>^GET:/posts".toList) ∧
          (∀ m, m ≠ "PUT".toList →
            GoMap.get? (recordValue "PUT".toList fileConfig "/posts=>^GET:/posts".toList).Bust m =
              GoMap.get? fileConfig.Bust m) ∧
          ∀ m r, ¬ (m = "PUT".toList ∧ r = bustRoute "/posts=>^GET:/posts".toList) →
            Config.bustPatterns (recordValue "PUT".toList fileConfig "/posts=>^GET:/posts".toList)
                m r =
              Config.bustPatterns fileConfig m r)) :=
  ⟨parseAndSetBustArgs_atomic fileConfig fileConfig "PUT".toList "/posts=>".toList
      (some (newParseBustArgError "PUT".toList "/posts=>".toList)) (by decide),
    parseAndSetBustArgs_atomic fileConfig
      (recordValue "PUT".toList fileConfig "/posts=>^GET:/posts".toList) "PUT".toList
      "/posts=>^GET:/posts".toList none (by decide)⟩

/-! ## The trailing slash of `ApiUrl` -/

theorem not_slash_suffix_concat (l : Str) (b : Char) (hb : b ≠ '/') : ¬ ['/'] <:+ l ++ [b] := by
  rintro ⟨t, ht⟩
  have := (List.append_inj' ht rfl).2
  simp only [List.cons.injEq, and_true] at this
  exact hb this.symm

/-- What is left of a string when the slashes at its end are removed: it has no
trailing slash, the string is what is left followed by slashes only, and a string
without a trailing slash is left as it is. -/
theorem rdropWhile_slash (url : Str) :
    ¬ ['/'] <:+ url.rdropWhile (fun b => b == '/') ∧
      (∃ n, url = url.rdropWhile (fun b => b == '/') ++ List.replicate n '/') ∧
      (¬ ['/'] <:+ url → url.rdropWhile (fun b => b == '/') = url) := by
  induction url using List.reverseRecOn with
  | nil =>
    refine ⟨?_, ⟨0, rfl⟩, fun _ => rfl⟩
    rintro ⟨t, ht⟩
    simp [List.rdropWhile] at ht
  | append_singleton l b ih =>
    by_cases hb : b = '/'
    · subst hb
      have hdrop : (l ++ ['/']).rdropWhile (fun b => b == '/') =
          l.rdropWhile (fun b => b == '/') := by
        rw [List.rdropWhile_concat]; simp
      rw [hdrop]
      obtain ⟨h1, ⟨n, h2⟩, _⟩ := ih
      refine ⟨h1, ⟨n + 1, ?_⟩, fun h3 => absurd (List.suffix_append l ['/']) h3⟩
      rw [List.replicate_succ', ← List.append_assoc, ← h2]
    · have hdrop : (l ++ [b]).rdropWhile (fun b => b == '/') = l ++ [b] := by
        rw [List.rdropWhile_concat]; simp [hb]
      rw [hdrop]
      exact ⟨not_slash_suffix_concat l b hb, ⟨0, by simp⟩, fun _ => rfl⟩

/-- A bust loop that returns has changed nothing but `Bust`. -/
theorem bustLoop_sameScalars (method : Str) (values : List Str) (c c' : Config)
    (err : Option Error) (h : bustLoop method values c = Outcome.returned c' err) :
    SameScalars c c' := by
  induction values generalizing c with
  | nil =>
    simp only [bustLoop, Outcome.returned.injEq] at h
    rw [← h.1]
    exact SameScalars.refl c
  | cons args rest ih =>
    by_cases hwf : SpecWellFormed args
    · simp only [bustLoop, parseAndSetBustArgs_wellFormed c method args hwf] at h
      cases hg : GoMap.get? c.Bust method with
      | none => rw [hg] at h; simp [Outcome.andThen] at h
      | some e =>
        rw [hg] at h
        simp only [Outcome.andThen] at h
        exact (recordValue_sameScalars method c args).trans (ih _ h)
    · simp only [bustLoop, parseAndSetBustArgs_not_wellFormed c method args hwf,
        Outcome.andThen, Outcome.returned.injEq] at h
      rw [← h.1]
      exact SameScalars.refl c

theorem runStages_panicked (stages : List (Str × List Str)) :
    runStages stages Outcome.panicked = Outcome.panicked := by
  induction stages with
  | nil => rfl
  | cons mv rest ih => exact ih

/-- The bust blocks, when they return, have changed nothing but `Bust`. -/
theorem runStages_sameScalars (stages : List (Str × List Str)) (c1 c' : Config)
    (err1 err : Option Error)
    (h : runStages stages (Outcome.returned c1 err1) = Outcome.returned c' err) :
    SameScalars c1 c' ∧ (err = none → err1 = none) := by
  induction stages generalizing c1 err1 with
  | nil =>
    simp only [runStages, List.foldl_nil, Outcome.returned.injEq] at h
    rw [← h.1, ← h.2]
    exact ⟨SameScalars.refl c1, fun hh => hh⟩
  | cons mv rest ih =>
    cases err1 with
    | some e =>
      have h2 : runStages rest (Outcome.returned c1 (some e)) = Outcome.returned c' err := h
      obtain ⟨h3, h4⟩ := ih c1 (some e) h2
      exact ⟨h3, fun hh => by simpa using h4 hh⟩
    | none =>
      refine ⟨?_, fun _ => rfl⟩
      have h2 : runStages rest (bustStage mv.1 mv.2 c1) = Outcome.returned c' err := h
      rw [bustStage_eq] at h2
      cases hb : bustLoop mv.1 mv.2 c1 with
      | panicked =>
        rw [hb, runStages_panicked] at h2
        simp at h2
      | returned c2 err2 =>
        rw [hb] at h2
        exact (bustLoop_sameScalars _ _ _ _ _ hb).trans (ih c2 err2 h2).1


/-- C13: when `addToConfig` returns without an error, `ApiUrl` does not end in `"/"`,
whatever the input `ApiUrl` was (the flag's value when one is given, the value of
the configuration otherwise): the input is the `ApiUrl` left followed by slashes
only, and an input without a trailing slash is left unchanged;
`"https://jsonplaceholder.typicode.com/"` becomes
`"https://jsonplaceholder.typicode.com"`. -/
theorem addToConfig_trims_slash (new : Config) (a : cliArgs) (c : Option Config)
    (c' : Config) (h : addToConfig new a c = Outcome.returned c' none) :
    ¬ ['/'] <:+ c'.ApiUrl ∧
      (∃ n, (if a.apiUrl ≠ [] then a.apiUrl else (c.getD new).ApiUrl) =
        c'.ApiUrl ++ List.replicate n '/') ∧
      (¬ ['/'] <:+ (if a.apiUrl ≠ [] then a.apiUrl else (c.getD new).ApiUrl) →
        c'.ApiUrl = (if a.apiUrl ≠ [] then a.apiUrl else (c.getD new).ApiUrl)) ∧
      (Config.TrimTrailingSlash
          { emptyConfig with ApiUrl := "https://jsonplaceholder.typicode.com/".toList }).ApiUrl =
        "https://jsonplaceholder.typicode.com".toList := by
  obtain ⟨_, _, _, _, f5, _, _, _⟩ := applyScalars_fields new a c
  have hurl : c'.ApiUrl =
      (if a.apiUrl ≠ [] then a.apiUrl else (c.getD new).ApiUrl).rdropWhile
        (fun b => b == '/') := by
    rw [addToConfig_eq] at h
    cases hcs : cacheStages a (applyScalars new a c) with
    | panicked => rw [hcs, runStages_panicked] at h; simp [Outcome.andThen] at h
    | returned c0 err0 =>
      obtain ⟨he0, hu0, _⟩ := cacheStages_returned _ _ _ _ hcs
      subst he0
      rw [hcs] at h
      cases hr : runStages a.bustFlags (Outcome.returned c0 none) with
      | panicked => rw [hr] at h; simp [Outcome.andThen] at h
      | returned c1 err1 =>
        rw [hr] at h
        obtain ⟨_, _, _, _, s5, _, _⟩ := (runStages_sameScalars _ _ _ _ _ hr).1
        cases err1 with
        | some e => simp [Outcome.andThen] at h
        | none =>
          simp only [Outcome.andThen] at h
          obtain ⟨err, hfin, _⟩ := finish_returns c1
          rw [hfin] at h
          simp only [Outcome.returned.injEq] at h
          rw [← h.1, ← f5, ← hu0, ← s5]
          rfl
  obtain ⟨h1, h2, h3⟩ :=
    rdropWhile_slash (if a.apiUrl ≠ [] then a.apiUrl else (c.getD new).ApiUrl)
  rw [← hurl] at h1 h2 h3
  exact ⟨h1, h2, h3, by decide⟩

theorem addToConfig_trims_slash_witness :
    ∃ c', addToConfig emptyConfig testFlags.toArgs none = Outcome.returned c' none ∧
      c'.ApiUrl = "https://jsonplaceholder.typicode.com".toList ∧
      (¬ ['/'] <:+ c'.ApiUrl ∧
      (∃ n, (if testFlags.toArgs.apiUrl ≠ [] then testFlags.toArgs.apiUrl
          else (Option.getD none emptyConfig).ApiUrl) = c'.ApiUrl ++ List.replicate n '/') ∧
      (¬ ['/'] <:+ (if testFlags.toArgs.apiUrl ≠ [] then testFlags.toArgs.apiUrl
          else (Option.getD none emptyConfig).ApiUrl) →
        c'.ApiUrl = (if testFlags.toArgs.apiUrl ≠ [] then testFlags.toArgs.apiUrl
          else (Option.getD none emptyConfig).ApiUrl)) ∧
      (Config.TrimTrailingSlash
          { emptyConfig with ApiUrl := "https://jsonplaceholder.typicode.com/".toList }).ApiUrl =
        "https://jsonplaceholder.typicode.com".toList) :=
  ⟨_, rfl, by decide, addToConfig_trims_slash emptyConfig testFlags.toArgs none _ rfl⟩

/-! ## The handler table of the router -/

theorem setBustingEndpoints_eq (app : App) (visit : List (Str × List (Str × List Str))) :
    setBustingEndpoints app visit = app ++ SpecBustStages visit := by
  induction visit generalizing app with
  | nil => simp [setBustingEndpoints, SpecBustStages]
  | cons me rest ih =>
    have inner : ∀ (eps : List (Str × List Str)) (app : App),
        eps.foldl (fun app ep => App.Add app me.1 ep.1 [Handler.createBustMiddleware ep.2]) app =
          app ++ eps.map
            (fun ep => Registration.add me.1 ep.1 [Handler.createBustMiddleware ep.2]) := by
      intro eps
      induction eps with
      | nil => intro app; simp
      | cons ep eps ihe =>
        intro app
        rw [List.foldl_cons, ihe]
        simp [App.Add]
    have := ih (app ++ me.2.map
      (fun ep => Registration.add me.1 ep.1 [Handler.createBustMiddleware ep.2]))
    simp only [setBustingEndpoints, List.foldl_cons, inner] at this ⊢
    rw [this]
    simp [SpecBustStages]

theorem setCachingEndpoints_eq (app : App) (conf : RouterConfig) :
    setCachingEndpoints app conf = app ++ SpecCachingStages conf := by
  unfold setCachingEndpoints SpecCachingStages
  generalize conf.Cache = eps
  induction eps generalizing app with
  | nil => simp
  | cons ep eps ih =>
    rw [List.foldl_cons, ih]
    simp [App.Get]

theorem SpecBustStages_visit (outer : GoMap Str (GoMap Str (List Str)))
    (visit : List (Str × List (Str × List Str)))
    (h : List.Forall₂ (fun e v => v.1 = e.1 ∧ RangeOrder e.2 v.2) outer visit) :
    (SpecBustStages visit).Perm (SpecBustStages outer) := by
  induction h with
  | nil => exact List.Perm.refl _
  | cons hhead _ ih =>
    obtain ⟨hm, hp⟩ := hhead
    simp only [SpecBustStages, List.flatMap_cons]
    refine List.Perm.append ?_ ih
    rw [hm]
    exact List.Perm.map _ hp

theorem SpecBustStages_perm (bust : GoMap Str (GoMap Str (List Str)))
    (visit : List (Str × List (Str × List Str))) (hv : NestedRangeOrder bust visit) :
    (SpecBustStages visit).Perm (SpecBustStages bust) := by
  obtain ⟨outer, h1, h2⟩ := hv
  exact (SpecBustStages_visit outer visit h2).trans (List.Perm.flatMap_right _ h1)


theorem Start_eq (conf : RouterConfig) (port : Str) (cache : Nat)
    (visit : List (Str × List (Str × List Str))) :
    (Start conf port cache visit).1 =
      Registration.use none (Handler.injectCtxCache cache) ::
        (SpecBustStages visit ++ SpecCachingStages conf ++
          [Registration.use (some ['*']) (Handler.createProxyHandler conf.ApiUrl)]) := by
  simp only [Start, App.Use, setCachingEndpoints_eq, setBustingEndpoints_eq]
  simp

theorem mem_SpecBustStages (bust : GoMap Str (GoMap Str (List Str))) (r : Registration)
    (h : r ∈ SpecBustStages bust) :
    ∃ method path patterns,
      r = Registration.add method path [Handler.createBustMiddleware patterns] := by
  simp only [SpecBustStages, List.mem_flatMap, List.mem_map] at h
  obtain ⟨me, _, ep, _, rfl⟩ := h
  exact ⟨_, _, _, rfl⟩

theorem mem_SpecCachingStages (conf : RouterConfig) (r : Registration)
    (h : r ∈ SpecCachingStages conf) :
    ∃ path, path ∈ conf.Cache ∧ r = Registration.get path
      [Handler.readCacheMiddleware, Handler.createProxyMiddleware conf.ApiUrl,
        Handler.writeCacheMiddleware] := by
  simp only [SpecCachingStages, List.mem_map] at h
  obtain ⟨ep, hep, rfl⟩ := h
  exact ⟨ep, hep, rfl⟩

/-- C11: the handler table `Start` builds is, in this order, the cache injection,
one bust stage for each configured method and route carrying the patterns of that
route (in the order the configuration is visited), the caching pipelines, and
last the transparent proxy handler; so among the registrations a request
selects, whatever they are, those made up to the last bust stage hold no proxying
handler and those after it hold no bust stage: a bust stage runs before any
handler that proxies the request upstream. -/
theorem Start_bust_before_proxy (conf : RouterConfig) (port : Str) (cache : Nat)
    (visit : List (Str × List (Str × List Str)))
    (hv : NestedRangeOrder conf.Bust visit) :
    ∃ busts,
      (Start conf port cache visit).1 =
        Registration.use none (Handler.injectCtxCache cache) ::
          (busts ++ SpecCachingStages conf ++
            [Registration.use (some ['*']) (Handler.createProxyHandler conf.ApiUrl)]) ∧
      busts.Perm (SpecBustStages conf.Bust) ∧
      (Start conf port cache visit).1.getLast? =
        some (Registration.use (some ['*']) (Handler.createProxyHandler conf.ApiUrl)) ∧
      ∀ selected : Registration → Bool, ∃ pre post,
        (Start conf port cache visit).1.filter selected = pre ++ post ∧
          (∀ r ∈ pre, r.proxies = false) ∧ (∀ r ∈ post, r.busts = false) := by
  refine ⟨SpecBustStages visit, Start_eq conf port cache visit,
    SpecBustStages_perm conf.Bust visit hv, ?_, ?_⟩
  · rw [Start_eq, ← List.cons_append, ← List.cons_append]
    exact List.getLast?_concat _
  · intro selected
    refine ⟨(Registration.use none (Handler.injectCtxCache cache) ::
        SpecBustStages visit).filter selected,
      (SpecCachingStages conf ++
        [Registration.use (some ['*']) (Handler.createProxyHandler conf.ApiUrl)]).filter
        selected, ?_, ?_, ?_⟩
    · rw [Start_eq, ← List.filter_append]
      simp
    · intro r hr
      have hr2 := (List.mem_filter.mp hr).1
      rcases List.mem_cons.mp hr2 with rfl | hmem
      · rfl
      · obtain ⟨m, p, ps, rfl⟩ := mem_SpecBustStages visit r hmem
        rfl
    · intro r hr
      have hr2 := (List.mem_filter.mp hr).1
      rcases List.mem_append.mp hr2 with hmem | hmem
      · obtain ⟨p, _, rfl⟩ := mem_SpecCachingStages conf r hmem
        rfl
      · have : r = Registration.use (some ['*']) (Handler.createProxyHandler conf.ApiUrl) := by
          simpa using hmem
        rw [this]
        rfl

theorem routerVisit_order : NestedRangeOrder routerConfig.Bust routerVisit := by
  refine ⟨[("PUT".toList,
        [("/posts".toList, ["^GET:/posts".toList, "^HEAD:/posts".toList]),
          ("/posts/:id".toList, ["^GET:/posts/:id".toList])]),
      ("POST".toList, [("/posts".toList, ["^GET:/posts".toList])])], ?_, ?_⟩
  · exact List.Perm.swap _ _ _
  · refine List.Forall₂.cons ⟨rfl, ?_⟩ (List.Forall₂.cons ⟨rfl, ?_⟩ List.Forall₂.nil)
    · exact List.Perm.swap _ _ _
    · exact List.Perm.refl _

theorem Start_bust_before_proxy_witness :
    ∃ busts,
      (Start routerConfig "8080".toList 0 routerVisit).1 =
        Registration.use none (Handler.injectCtxCache 0) ::
          (busts ++ SpecCachingStages routerConfig ++
            [Registration.use (some ['*'])
              (Handler.createProxyHandler routerConfig.ApiUrl)]) ∧
      busts.Perm (SpecBustStages routerConfig.Bust) ∧
      (Start routerConfig "8080".toList 0 routerVisit).1.getLast? =
        some (Registration.use (some ['*'])
          (Handler.createProxyHandler routerConfig.ApiUrl)) ∧
      ∀ selected : Registration → Bool, ∃ pre post,
        (Start routerConfig "8080".toList 0 routerVisit).1.filter selected = pre ++ post ∧
          (∀ r ∈ pre, r.proxies = false) ∧ (∀ r ∈ post, r.busts = false) :=
  Start_bust_before_proxy routerConfig "8080".toList 0 routerVisit routerVisit_order

/-- C12: `setCachingEndpoints` adds to the handler table, for each configured
cacheable route in turn, one registration of that route with exactly the three
stages read-cache, proxy to the configured `ApiUrl`, write-cache, in that order,
and nothing else; in the table `Start` builds, whatever the order in which the
bust routes are visited, the registrations that hold a stage of the caching
pipeline are these and no others. -/
theorem setCachingEndpoints_pipeline (conf : RouterConfig) (app : App) (port : Str)
    (cache : Nat) (visit : List (Str × List (Str × List Str))) :
    setCachingEndpoints app conf =
        app ++ conf.Cache.map
          (fun endpoint => Registration.get endpoint
            [Handler.readCacheMiddleware, Handler.createProxyMiddleware conf.ApiUrl,
              Handler.writeCacheMiddleware]) ∧
      (Start conf port cache visit).1.filter Registration.caches =
        conf.Cache.map
          (fun endpoint => Registration.get endpoint
            [Handler.readCacheMiddleware, Handler.createProxyMiddleware conf.ApiUrl,
              Handler.writeCacheMiddleware]) := by
  refine ⟨setCachingEndpoints_eq app conf, ?_⟩
  have h1 : (SpecBustStages visit).filter Registration.caches = [] := by
    rw [List.filter_eq_nil_iff]
    intro r hr
    obtain ⟨m, p, ps, rfl⟩ := mem_SpecBustStages visit r hr
    simp [Registration.caches, Registration.handlers]
  have h2 : (SpecCachingStages conf).filter Registration.caches = SpecCachingStages conf := by
    rw [List.filter_eq_self]
    intro r hr
    obtain ⟨p, _, rfl⟩ := mem_SpecCachingStages conf r hr
    rfl
  rw [Start_eq]
  simp only [List.filter_cons, List.filter_append, h1, h2]
  simp [Registration.caches, Registration.handlers, SpecCachingStages]

/-! ## The LRU store -/

theorem Store.evict_entries (n : Nat) (s : Store) :
    (Store.evict n s).entries <+: s.entries ∧ (Store.evict n s).capacity = s.capacity ∧
      (Store.evict n s).mode = s.mode := by
  induction n generalizing s with
  | zero => exact ⟨List.prefix_refl _, rfl, rfl⟩
  | succ n ih =>
    unfold Store.evict
    split
    · obtain ⟨h1, h2, h3⟩ := ih { s with entries := s.entries.dropLast }
      exact ⟨h1.trans (List.dropLast_prefix _), h2, h3⟩
    · exact ⟨List.prefix_refl _, rfl, rfl⟩

theorem Store.keys_front (s : Store) (key : Str) (e : Entry) :
    Store.Keys { s with entries := (key, e) :: s.entries.filter (fun x => x.1 ≠ key) } =
      key :: s.Keys.filter (fun k => k ≠ key) := by
  simp only [Store.Keys, List.map_cons, List.filter_map]
  rfl

theorem GoMap.get?_eq_none_iff {K V : Type} [DecidableEq K] (m : GoMap K V) (k : K) :
    GoMap.get? m k = none ↔ k ∉ m.map Prod.fst := by
  induction m with
  | nil => simp [GoMap.get?]
  | cons e rest ih =>
    obtain ⟨k', v⟩ := e
    by_cases hk : k' = k
    · simp [GoMap.get?, hk]
    · have hk2 : ¬ k = k' := fun h => hk h.symm
      simp [GoMap.get?, hk, hk2, ih]

/-- The keys after a `Get`: the key moves to the front when it is resident. -/
theorem Store.keys_Get (s : Store) (key : Str) :
    (s.Get key).1.Keys = if key ∈ s.Keys then key :: s.Keys.filter (fun k => k ≠ key)
      else s.Keys := by
  unfold Store.Get
  cases h : GoMap.get? s.entries key with
  | none =>
    have : key ∉ s.Keys := (GoMap.get?_eq_none_iff _ _).mp h
    simp [this]
  | some e =>
    have : key ∈ s.Keys := by
      by_contra hcon
      rw [(GoMap.get?_eq_none_iff _ _).mpr hcon] at h
      simp at h
    simp only [this, if_true]
    exact Store.keys_front s key e

/-- The keys after a `Set`: the key is put in front, and what is evicted is taken
from the tail. -/
theorem Store.keys_Set (s : Store) (key : Str) (e : Entry) :
    (s.Set key e).1.Keys <+: key :: s.Keys.filter (fun k => k ≠ key) := by
  rw [← Store.keys_front s key e]
  unfold Store.Set Store.Keys
  exact (Store.evict_entries _ _).1.map _

theorem lastAccessRev_le (ops : List Op) (key : Str) : lastAccessRev ops key ≤ ops.length := by
  induction ops with
  | nil => simp [lastAccessRev]
  | cons op rest ih =>
    unfold lastAccessRev
    split
    · simp
    · simp only [List.length_cons]; omega

theorem SpecLastAccess_le (ops : List Op) (key : Str) : SpecLastAccess ops key ≤ ops.length := by
  have := lastAccessRev_le ops.reverse key
  simpa [SpecLastAccess] using this

theorem SpecLastAccess_concat (ops : List Op) (op : Op) (key : Str) :
    SpecLastAccess (ops ++ [op]) key =
      if op.key = key then ops.length + 1 else SpecLastAccess ops key := by
  simp [SpecLastAccess, lastAccessRev]

/-- The recency order: in a store reached from an empty one, every resident key
was last accessed later than every key behind it. -/
theorem Store.keys_sorted (capacity : Nat) (mode : Mode) (ops : List Op) :
    ((Store.empty capacity mode).run ops).Keys.Pairwise
      (fun k1 k2 => SpecLastAccess ops k2 < SpecLastAccess ops k1) := by
  induction ops using List.reverseRecOn with
  | nil => simp [Store.run, Store.empty, Store.Keys]
  | append_singleton ops op ih =>
    have hrun : (Store.empty capacity mode).run (ops ++ [op]) =
        ((Store.empty capacity mode).run ops).step op := by
      simp [Store.run, List.foldl_append]
    rw [hrun]
    generalize (Store.empty capacity mode).run ops = s at ih
    -- the list with the key of the operation in front is in recency order
    have front : (op.key :: s.Keys.filter (fun k => k ≠ op.key)).Pairwise
        (fun k1 k2 => SpecLastAccess (ops ++ [op]) k2 < SpecLastAccess (ops ++ [op]) k1) := by
      rw [List.pairwise_cons]
      constructor
      · intro k hk
        have hne : k ≠ op.key := by simpa using (List.mem_filter.mp hk).2
        rw [SpecLastAccess_concat, SpecLastAccess_concat, if_neg (fun h => hne h.symm),
          if_pos rfl]
        have := SpecLastAccess_le ops k
        omega
      · refine List.Pairwise.imp_of_mem ?_ (ih.sublist (List.filter_sublist _))
        intro k1 k2 h1 h2 hlt
        have hne1 : k1 ≠ op.key := by simpa using (List.mem_filter.mp h1).2
        have hne2 : k2 ≠ op.key := by simpa using (List.mem_filter.mp h2).2
        rw [SpecLastAccess_concat, SpecLastAccess_concat, if_neg (fun h => hne2 h.symm),
          if_neg (fun h => hne1 h.symm)]
        exact hlt
    cases op with
    | get key =>
      show ((s.Get key).1.Keys).Pairwise _
      rw [Store.keys_Get]
      by_cases hk : key ∈ s.Keys
      · rw [if_pos hk]
        exact front
      · rw [if_neg hk]
        refine List.Pairwise.imp_of_mem ?_ ih
        intro k1 k2 h1 h2 hlt
        have hne1 : ¬ key = k1 := fun h => hk (h ▸ h1)
        have hne2 : ¬ key = k2 := fun h => hk (h ▸ h2)
        rw [SpecLastAccess_concat, SpecLastAccess_concat]
        simp only [Op.key, hne1, hne2, if_false]
        exact hlt
    | set key e =>
      show ((s.Set key e).1.Keys).Pairwise _
      exact front.sublist (Store.keys_Set s key e).sublist


/-- Every key evicted by a `Set` was last accessed before every key that stays. -/
theorem Store.evicted_oldest (capacity : Nat) (mode : Mode) (ops : List Op) (key : Str)
    (entry : Entry) (v k' : Str)
    (hv : v ∈ ((Store.empty capacity mode).run ops).Keys)
    (hgone : v ∉ (((Store.empty capacity mode).run ops).Set key entry).1.Keys)
    (hk : k' ∈ (((Store.empty capacity mode).run ops).Set key entry).1.Keys)
    (hne : k' ≠ key) :
    SpecLastAccess ops v < SpecLastAccess ops k' := by
  have hsorted := Store.keys_sorted capacity mode ops
  generalize (Store.empty capacity mode).run ops = s at hv hgone hk hsorted
  have hpre := Store.keys_Set s key entry
  cases hK : (s.Set key entry).1.Keys with
  | nil => rw [hK] at hk; simp at hk
  | cons x T =>
    rw [hK] at hpre hk hgone
    obtain ⟨hx, hT⟩ := List.cons_prefix_cons.mp hpre
    obtain ⟨D, hD⟩ := hT
    have hvkey : v ≠ key := by
      intro h
      apply hgone
      rw [h, hx]
      exact List.mem_cons_self _ _
    have hvL : v ∈ T ++ D := by
      rw [hD]
      exact List.mem_filter.mpr ⟨hv, by simpa using hvkey⟩
    have hvD : v ∈ D := by
      rcases List.mem_append.mp hvL with h | h
      · exact absurd (List.mem_cons_of_mem _ h) hgone
      · exact h
    have hkT : k' ∈ T := by
      rcases List.mem_cons.mp hk with h | h
      · exact absurd (h.trans hx) hne
      · exact h
    have hL : (T ++ D).Pairwise (fun k1 k2 => SpecLastAccess ops k2 < SpecLastAccess ops k1) := by
      rw [hD]
      exact hsorted.sublist (List.filter_sublist _)
    exact (List.pairwise_append.mp hL).2.2 k' hkT v hvD

/-- In entry-mode a `Set` of a new key on a full store evicts the tail and nothing
else. -/
theorem Store.Set_full (s : Store) (key : Str) (entry : Entry) (hmode : s.mode = Mode.entry)
    (hcap : 0 < s.capacity) (hfull : s.Keys.length = s.capacity) (hnew : key ∉ s.Keys) :
    (s.Set key entry).1.Keys = key :: s.Keys.dropLast ∧ (s.Set key entry).2 = false := by
  have hfilter : s.entries.filter (fun x => x.1 ≠ key) = s.entries := by
    rw [List.filter_eq_self]
    intro x hx
    have : x.1 ≠ key := fun h => hnew (h ▸ List.mem_map_of_mem Prod.fst hx)
    simpa using this
  have hlen : s.entries.length = s.capacity := by simpa [Store.Keys] using hfull
  have hne : s.entries ≠ [] := by
    intro h
    rw [h] at hlen
    simp at hlen
    omega
  have hev : Store.evict ((key, entry) :: s.entries).length
      { s with entries := (key, entry) :: s.entries } =
      { s with entries := (key, entry) :: s.entries.dropLast } := by
    obtain ⟨n, hn⟩ : ∃ n, s.entries.length = n + 1 := ⟨s.entries.length - 1, by omega⟩
    have h1 : s.capacity < Store.used { s with entries := (key, entry) :: s.entries } := by
      simp [Store.used, hmode]; omega
    have h2 : ¬ s.capacity <
        Store.used { s with entries := ((key, entry) :: s.entries).dropLast } := by
      simp [Store.used, hmode]; omega
    simp only [List.length_cons, hn]
    rw [Store.evict]
    simp only [h1, true_and, ne_eq, reduceCtorEq, not_false_eq_true, if_true]
    rw [Store.evict]
    simp only [h2, false_and, if_false]
    rw [List.dropLast_cons_of_ne_nil hne]
  unfold Store.Set
  simp only [hfilter, hev]
  constructor
  · simp [Store.Keys, List.map_dropLast]
  · simp [GoMap.get?]


theorem Store.step_capacity (s : Store) (op : Op) :
    (s.step op).capacity = s.capacity ∧ (s.step op).mode = s.mode := by
  cases op with
  | get key =>
    show (s.Get key).1.capacity = _ ∧ (s.Get key).1.mode = _
    unfold Store.Get
    cases GoMap.get? s.entries key <;> exact ⟨rfl, rfl⟩
  | set key e =>
    show (s.Set key e).1.capacity = _ ∧ (s.Set key e).1.mode = _
    unfold Store.Set
    exact (Store.evict_entries _ _).2

theorem Store.run_capacity (s : Store) (ops : List Op) :
    (s.run ops).capacity = s.capacity ∧ (s.run ops).mode = s.mode := by
  induction ops generalizing s with
  | nil => exact ⟨rfl, rfl⟩
  | cons op rest ih =>
    obtain ⟨h1, h2⟩ := ih (s.step op)
    obtain ⟨h3, h4⟩ := Store.step_capacity s op
    exact ⟨h1.trans h3, h2.trans h4⟩

/-- C14: in an entry-mode store of capacity 2, after `Set(a); Set(b); Get(a); Set(c)`
with three different keys the resident keys are `c` and `a`, and `b` is not
resident. In general, in a store reached from an empty one by `Get`s and `Set`s,
every key a `Set` evicts was last accessed (by a `Get` or a `Set`) before every
other key that stays; and in entry-mode a `Set` of a new key on a full store
evicts exactly the key at the tail, the one accessed longest ago. -/
theorem Store.get_promotes_evict_oldest (a b c : Str) (ea eb ec : Entry)
    (hab : a ≠ b) (hac : a ≠ c) (hbc : b ≠ c) :
    ((Store.empty 2 Mode.entry).run
        [Op.set a ea, Op.set b eb, Op.get a, Op.set c ec]).Keys = [c, a] ∧
      b ∉ ((Store.empty 2 Mode.entry).run
        [Op.set a ea, Op.set b eb, Op.get a, Op.set c ec]).Keys ∧
      (∀ capacity mode ops key entry v k',
        v ∈ ((Store.empty capacity mode).run ops).Keys →
        v ∉ (((Store.empty capacity mode).run ops).Set key entry).1.Keys →
        k' ∈ (((Store.empty capacity mode).run ops).Set key entry).1.Keys →
        k' ≠ key → SpecLastAccess ops v < SpecLastAccess ops k') ∧
      (∀ capacity ops key entry, 0 < capacity →
        ((Store.empty capacity Mode.entry).run ops).Keys.length = capacity →
        key ∉ ((Store.empty capacity Mode.entry).run ops).Keys →
        (((Store.empty capacity Mode.entry).run ops).Set key entry).1.Keys =
          key :: ((Store.empty capacity Mode.entry).run ops).Keys.dropLast ∧
        ∀ k ∈ ((Store.empty capacity Mode.entry).run ops).Keys.dropLast,
          SpecLastAccess ops
              (((Store.empty capacity Mode.entry).run ops).Keys.getLastD []) <
            SpecLastAccess ops k) := by
  have hba : b ≠ a := fun h => hab h.symm
  have hca : c ≠ a := fun h => hac h.symm
  have hcb : c ≠ b := fun h => hbc h.symm
  have hkeys : ((Store.empty 2 Mode.entry).run
      [Op.set a ea, Op.set b eb, Op.get a, Op.set c ec]).Keys = [c, a] := by
    simp [Store.run, Store.step, Store.Set, Store.Get, Store.evict, Store.used, Store.empty,
      Store.Keys, GoMap.get?, hab, hac, hbc, hba, hca, hcb]
  refine ⟨hkeys, ?_, ?_, ?_⟩
  · rw [hkeys]
    simp [hbc, hba]
  · intro capacity mode ops key entry v k' hv hgone hk hne
    exact Store.evicted_oldest capacity mode ops key entry v k' hv hgone hk hne
  · intro capacity ops key entry hcap hfull hnew
    obtain ⟨h1, h2⟩ := Store.run_capacity (Store.empty capacity Mode.entry) ops
    have hsorted := Store.keys_sorted capacity Mode.entry ops
    generalize (Store.empty capacity Mode.entry).run ops = s at *
    have h3 : s.capacity = capacity := h1
    have h4 : s.mode = Mode.entry := h2
    refine ⟨(Store.Set_full s key entry h4 (h3 ▸ hcap) (h3 ▸ hfull) hnew).1, ?_⟩
    intro k hk
    have hne : s.Keys ≠ [] := by
      intro h
      rw [h] at hk
      simp at hk
    have hsplit : s.Keys = s.Keys.dropLast ++ [s.Keys.getLastD []] := by
      rw [List.getLastD_eq_getLast?, List.getLast?_eq_getLast _ hne]
      exact (List.dropLast_append_getLast hne).symm
    rw [hsplit] at hsorted
    exact (List.pairwise_append.mp hsorted).2.2 k hk _ (by simp)


theorem Store.get_promotes_evict_oldest_witness :
    ((Store.empty 2 Mode.entry).run
        [Op.set "GET:/1".toList (sampleEntry 1), Op.set "GET:/2".toList (sampleEntry 1),
          Op.get "GET:/1".toList, Op.set "GET:/3".toList (sampleEntry 1)]).Keys =
        ["GET:/3".toList, "GET:/1".toList] ∧
      "GET:/2".toList ∉ ((Store.empty 2 Mode.entry).run
        [Op.set "GET:/1".toList (sampleEntry 1), Op.set "GET:/2".toList (sampleEntry 1),
          Op.get "GET:/1".toList, Op.set "GET:/3".toList (sampleEntry 1)]).Keys ∧
      (∀ capacity mode ops key entry v k',
        v ∈ ((Store.empty capacity mode).run ops).Keys →
        v ∉ (((Store.empty capacity mode).run ops).Set key entry).1.Keys →
        k' ∈ (((Store.empty capacity mode).run ops).Set key entry).1.Keys →
        k' ≠ key → SpecLastAccess ops v < SpecLastAccess ops k') ∧
      (∀ capacity ops key entry, 0 < capacity →
        ((Store.empty capacity Mode.entry).run ops).Keys.length = capacity →
        key ∉ ((Store.empty capacity Mode.entry).run ops).Keys →
        (((Store.empty capacity Mode.entry).run ops).Set key entry).1.Keys =
          key :: ((Store.empty capacity Mode.entry).run ops).Keys.dropLast ∧
        ∀ k ∈ ((Store.empty capacity Mode.entry).run ops).Keys.dropLast,
          SpecLastAccess ops
              (((Store.empty capacity Mode.entry).run ops).Keys.getLastD []) <
            SpecLastAccess ops k) :=
  Store.get_promotes_evict_oldest "GET:/1".toList "GET:/2".toList "GET:/3".toList
    (sampleEntry 1) (sampleEntry 1) (sampleEntry 1) (by decide) (by decide) (by decide)

end CacheMeOusside
